import Mathlib

/-!
# Verification of the wynd-stake staking/distribution contract

This file gives a shallow embedding of the accounting core of the
`wynd-stake` contract (`contracts/wynd-stake/src/{state.rs, contract.rs,
distribution.rs}`) and proves or refutes the specification claims about it.

Modelling conventions:

* `Uint128` amounts are modelled as `Nat`, the signed `i128` correction as
  `Int`.  CosmWasm `Uint128` arithmetic panics on overflow/underflow; a panic
  aborts the whole message, which we model as an `Except.error`.  Explicitly
  `checked_sub` calls and the underflow-checked subtractions are modelled as
  guarded subtractions returning `Err.underflow`.  128-bit *overflow* aborts
  of the bookkeeping additions (which require total amounts ≥ 2^128, beyond
  any token supply) are not modelled, except inside `distributePool` where the
  bit-level behaviour of `<< SHARES_SHIFT` and of the `as u64` cast is the
  subject of a claim and is modelled exactly (`% 2^128`, `% 2^64`).
* `Timestamp` is in nanoseconds as in `cosmwasm_std::Timestamp`;
  `plus_seconds` multiplies by `10^9`.
* `Decimal` multipliers are represented by their atomics (the numerator over
  `10^18`): `Uint128 * Decimal` floors `stake * atomics / 10^18`.
* Storage maps with `unwrap_or_default` reads are modelled as total
  functions; `MEMBERS`/`REWARDS` `remove` is modelled as writing `0`, which
  is read-equivalent (every read uses `unwrap_or_default`).
  `WITHDRAW_ADJUSTMENT` and `TOTAL_REWARDS` are `Option`-valued because the
  code distinguishes a missing entry (`load` fails on `TOTAL_REWARDS` and
  `WITHDRAW_ADJUSTMENT`).
* Outbound messages (hooks, cw20 transfers) and snapshot heights are not part
  of any claim settled against this machine and are omitted from the state;
  the height-versioned voting-power index is modelled separately below.
-/

set_option maxRecDepth 100000

namespace WyndStake

/-- Errors of the contract that the claims mention.  `underflow` stands for
`ContractError::Std(StdError::Overflow(Sub))`, i.e. the arithmetic-underflow
abort of a `checked_sub`/panicking subtraction; `overflow` for a panicking
addition. -/
inductive Err where
  | underflow
  | overflow
  | noUnbondingPeriodFound (period : Nat)
  | noRebondAmount
  | sameUnbondingRebond
  | noMembersToDistributeTo
  | notFound
  | nothingToClaim
  | unauthorized
  deriving DecidableEq, Repr

/-- Nanoseconds per second: `Timestamp::plus_seconds` scales by this. -/
def nanosPerSecond : Nat := 1000000000

/-- Timestamps are nanoseconds, as in `cosmwasm_std::Timestamp`. -/
abbrev Timestamp := Nat

/-- Model of `Timestamp::plus_seconds`. -/
def plusSeconds (t : Timestamp) (s : Nat) : Timestamp := t + s * nanosPerSecond

/-- The part of `Env` the contract reads: the block time (heights only feed
the snapshot maps, which are modelled separately). -/
structure Env where
  time : Timestamp
  height : Nat
  deriving Repr

/-- `BondingInfo` from `state.rs`: per (account, unbonding-period) record of
free stake, cached voting/reward power, and time-locked stake entries. -/
structure BondingInfo where
  stake : Nat
  votes : Nat
  rewards : Nat
  locked_tokens : List (Timestamp × Nat)
  deriving DecidableEq, Repr

instance : Inhabited BondingInfo := ⟨⟨0, 0, 0, []⟩⟩

namespace BondingInfo

/-- `BondingInfo::add_unlocked_tokens`: add to the free stake. -/
def add_unlocked_tokens (b : BondingInfo) (amount : Nat) : BondingInfo :=
  { b with stake := b.stake + amount }

/-- Sorted insertion mirroring `BondingInfo::add_locked_tokens`, which does a
`binary_search` for the exact `(expires, amount)` pair in the sorted vector,
doubling the entry on an exact hit and inserting at the sort position
otherwise. -/
def insertLocked : List (Timestamp × Nat) → Timestamp × Nat → List (Timestamp × Nat)
  | [], x => [x]
  | y :: ys, x =>
    if x.1 < y.1 ∨ (x.1 = y.1 ∧ x.2 < y.2) then x :: y :: ys
    else if x = y then (y.1, y.2 + x.2) :: ys
    else y :: insertLocked ys x

/-- `BondingInfo::add_locked_tokens`. -/
def add_locked_tokens (b : BondingInfo) (expires : Timestamp) (amount : Nat) :
    BondingInfo :=
  { b with locked_tokens := insertLocked b.locked_tokens (expires, amount) }

/-- `BondingInfo::free_unlocked_tokens`: fold every locked entry whose unlock
time is at or before the block time into the free stake. -/
def free_unlocked_tokens (b : BondingInfo) (env : Env) : BondingInfo :=
  { b with
    stake := b.stake + ((b.locked_tokens.filter fun e => e.1 ≤ env.time).map (·.2)).sum
    locked_tokens := b.locked_tokens.filter fun e => ¬ e.1 ≤ env.time }

/-- `BondingInfo::release_stake`: fold matured locked entries, then
`checked_sub` the requested amount from the free stake. -/
def release_stake (b : BondingInfo) (env : Env) (amount : Nat) :
    Except Err BondingInfo :=
  let b' := b.free_unlocked_tokens env
  if b'.stake < amount then .error .underflow
  else .ok { b' with stake := b'.stake - amount }

/-- `BondingInfo::total_locked`: locked entries strictly after the block time. -/
def total_locked (b : BondingInfo) (env : Env) : Nat :=
  ((b.locked_tokens.filter fun e => env.time < e.1).map (·.2)).sum

/-- `BondingInfo::total_unlocked`: free stake plus matured locked entries. -/
def total_unlocked (b : BondingInfo) (env : Env) : Nat :=
  b.stake + ((b.locked_tokens.filter fun e => e.1 ≤ env.time).map (·.2)).sum

/-- `BondingInfo::total_stake`: free stake plus all locked entries. -/
def total_stake (b : BondingInfo) : Nat :=
  b.stake + (b.locked_tokens.map (·.2)).sum

end BondingInfo

/-- `SHARES_SHIFT` from `state.rs` (fixed-point shift of the distribution). -/
def SHARES_SHIFT : Nat := 32

/-- `Distribution` from `state.rs`.  `shares_leftover` is a `u64` in the
source; the invariant `shares_leftover < 2^64` is maintained below. -/
structure Distribution where
  shares_per_point : Nat
  shares_leftover : Nat
  distributed_total : Nat
  withdrawable_total : Nat
  deriving DecidableEq, Repr

instance : Inhabited Distribution := ⟨⟨0, 0, 0, 0⟩⟩

/-- `WithdrawAdjustment` from `state.rs`, per account. -/
structure WithdrawAdjustment (A : Type) where
  shares_correction : Int
  withdrawn_rewards : Nat
  delegated : A
  deriving DecidableEq, Repr

/-- The pool update of `execute_distribute_rewards` (`distribution.rs`
lines 48–59), bit-exact on the 128-bit arithmetic: `amount << SHARES_SHIFT`
is a truncating `u128` shift, the addition of the leftover and the three
`Uint128` additions abort on overflow, `points / total` and `points % total`
are exact, and the `(points % total) as u64` cast truncates to 64 bits. -/
def distributePool (d : Distribution) (total amount : Nat) : Except Err Distribution :=
  let leftover := d.shares_leftover
  let shifted := (amount * 2 ^ SHARES_SHIFT) % 2 ^ 128
  if 2 ^ 128 ≤ shifted + leftover then .error .overflow
  else
    let points := shifted + leftover
    let points_per_share := points / total
    let leftover' := (points % total) % 2 ^ 64
    if 2 ^ 128 ≤ d.shares_per_point + points_per_share then .error .overflow
    else if 2 ^ 128 ≤ d.distributed_total + amount then .error .overflow
    else if 2 ^ 128 ≤ d.withdrawable_total + amount then .error .overflow
    else .ok
      { shares_per_point := d.shares_per_point + points_per_share
        shares_leftover := leftover'
        distributed_total := d.distributed_total + amount
        withdrawable_total := d.withdrawable_total + amount }

/-- `withdrawable_rewards` from `distribution.rs`: the adjusted share count
`shares_per_point * reward_power + shares_correction` in signed arithmetic,
shifted down by `SHARES_SHIFT`, minus the already-withdrawn rewards.  The
final subtraction is a panicking (checked) `u128` subtraction.  The `u128 ↔
i128` reinterpretation casts agree with the exact signed value whenever
`0 ≤ adjusted < 2^127` — which holds in every reachable state (proved below);
beyond that range the code aborts on a 128-bit overflow, outside the
modelled range. -/
def withdrawableRewards (power : Nat) (d : Distribution)
    (adj : WithdrawAdjustment A) : Except Err Nat :=
  let points : Int := (d.shares_per_point * power : Nat)
  let adjusted : Int := points + adj.shares_correction
  let amount := adjusted.toNat / 2 ^ SHARES_SHIFT
  if amount < adj.withdrawn_rewards then .error .underflow
  else .ok (amount - adj.withdrawn_rewards)

/-- `StakeMultipliers` from `state.rs`: voting/reward multiplier atomics and
the per-bucket total staked counter. -/
structure StakeMultipliers where
  voting : Nat
  reward : Nat
  staked : Nat
  deriving DecidableEq, Repr

/-- `TokenInfo` from `state.rs` (the `TOTAL_STAKED` item). -/
structure TokenInfo where
  staked : Nat
  unbonding : Nat
  deriving DecidableEq, Repr

/-- `calc_power` from `contract.rs`: zero below `min_bond`, otherwise
`stake * multiplier / tokens_per_power` where `Uint128 * Decimal` floors
`stake * atomics / 10^18`. -/
def calcPower (minBond tokensPerPower stake atomics : Nat) : Nat :=
  if stake < minBond then 0
  else stake * atomics / 10 ^ 18 / tokensPerPower

/-- Contract state: the storage items of `state.rs` that the claims concern.
`A` is the address type of accounts. -/
structure State (A : Type) where
  /-- `STAKE_CONFIG` map: unbonding period → multipliers and bucket total. -/
  stakeConfig : Nat → Option StakeMultipliers
  /-- `Config::unbonding_periods`. -/
  periods : List Nat
  /-- `Config::min_bond` (forced ≥ 1 at instantiation). -/
  minBond : Nat
  /-- `Config::tokens_per_power`. -/
  tokensPerPower : Nat
  /-- `STAKE` map, absent records read as `default`. -/
  stake : A → Nat → BondingInfo
  /-- `MEMBERS` snapshot map, current values (absent = 0). -/
  members : A → Nat
  /-- `TOTAL_VOTES` snapshot item, current value. -/
  totalVotes : Nat
  /-- `REWARDS` map (absent = 0). -/
  rewards : A → Nat
  /-- `TOTAL_REWARDS` item; `none` until the first reward-power change
  (`execute_distribute_rewards` does a failing `load` then). -/
  totalRewards : Option Nat
  /-- `DISTRIBUTION` item. -/
  distribution : Distribution
  /-- `WITHDRAW_ADJUSTMENT` map. -/
  adjustments : A → Option (WithdrawAdjustment A)
  /-- `CLAIMS`: per-account queue of (amount, release time). -/
  claims : A → List (Nat × Timestamp)
  /-- `TOTAL_STAKED` item. -/
  totalStaked : TokenInfo

variable {A : Type} [DecidableEq A]

/-- `update_membership` from `contract.rs` (hook submessages omitted):
records the change of the account's total voting power in `MEMBERS` and
`TOTAL_VOTES`.  `old_total + new - old` is panicking `Uint128` arithmetic,
modelled as guarded subtraction. -/
def updateMembership (s : State A) (sender : A) (oldVotes newVotes : List Nat) :
    Except Err (State A) :=
  let old := oldVotes.sum
  let new := newVotes.sum
  if new = old then .ok s
  else
    let oldTotal := s.members sender
    if oldTotal + new < old then .error .underflow
    else
      let newTotal := oldTotal + new - old
      if s.totalVotes + new < old then .error .underflow
      else .ok { s with
        members := Function.update s.members sender newTotal
        totalVotes := s.totalVotes + new - old }

/-- `apply_points_correction` from `distribution.rs`: subtract
`shares_per_point * diff` from the account's correction, creating the
adjustment record on first use. -/
def applyPointsCorrection (s : State A) (addr : A) (sharesPerPoint : Nat)
    (diff : Int) : State A :=
  let old := (s.adjustments addr).getD ⟨0, 0, addr⟩
  let old' := { old with
    shares_correction := old.shares_correction - sharesPerPoint * diff }
  { s with adjustments := Function.update s.adjustments addr (some old') }

/-- `update_rewards` from `contract.rs`: records the change of the account's
total reward power in `REWARDS` and `TOTAL_REWARDS` and applies the points
correction at the current `shares_per_point`. -/
def updateRewards (s : State A) (sender : A) (oldRewards newRewards : List Nat) :
    Except Err (State A) :=
  let old := oldRewards.sum
  let new := newRewards.sum
  if old = new then .ok s
  else
    let oldTotal := s.rewards sender
    if oldTotal + new < old then .error .underflow
    else
      -- `REWARDS.remove` when the power drops to zero is write-equivalent to
      -- saving `old_total + new - old = 0` (reads use `unwrap_or_default`).
      let s1 := { s with rewards := Function.update s.rewards sender (oldTotal + new - old) }
      let oldTotalRewards := s1.totalRewards.getD 0
      if oldTotalRewards + new < old then .error .underflow
      else
        let s2 := { s1 with totalRewards := some (oldTotalRewards + new - old) }
        let ppw := s2.distribution.shares_per_point
        .ok (applyPointsCorrection s2 sender ppw ((new : Int) - (old : Int)))

/-- `execute_bond` from `contract.rs` (the cw20-sender authentication, which
precedes everything, is outside the model). -/
def executeBond (s : State A) (_env : Env) (sender : A) (amount period : Nat) :
    Except Err (State A) :=
  match s.stakeConfig period with
  | none => .error (.noUnbondingPeriodFound period)
  | some sc =>
    let sc' := { sc with staked := sc.staked + amount }
    let s1 := { s with stakeConfig := Function.update s.stakeConfig period (some sc') }
    let bi := s1.stake sender period
    let bi1 := bi.add_unlocked_tokens amount
    let newStake := bi1.total_stake
    let votes' := calcPower s.minBond s.tokensPerPower newStake sc.voting
    let rewards' := calcPower s.minBond s.tokensPerPower newStake sc.reward
    let oldVotes := bi1.votes
    let oldRewards := bi1.rewards
    let bi2 := { bi1 with votes := votes', rewards := rewards' }
    let s2 := { s1 with
      stake := Function.update s1.stake sender (Function.update (s1.stake sender) period bi2) }
    match updateMembership s2 sender [oldVotes] [votes'] with
    | .error e => .error e
    | .ok s3 =>
      match updateRewards s3 sender [oldRewards] [rewards'] with
      | .error e => .error e
      | .ok s4 => .ok { s4 with totalStaked :=
          { staked := s4.totalStaked.staked + amount
            unbonding := s4.totalStaked.unbonding } }

/-- `execute_unbond` from `contract.rs`. -/
def executeUnbond (s : State A) (env : Env) (sender : A) (amount period : Nat) :
    Except Err (State A) :=
  match s.stakeConfig period with
  | none => .error (.noUnbondingPeriodFound period)
  | some sc =>
    if sc.staked < amount then .error .underflow
    else
      let sc' := { sc with staked := sc.staked - amount }
      let s1 := { s with stakeConfig := Function.update s.stakeConfig period (some sc') }
      let bi := s1.stake sender period
      match bi.release_stake env amount with
      | .error e => .error e
      | .ok bi1 =>
        let newStake := bi1.total_stake
        let votes' := calcPower s.minBond s.tokensPerPower newStake sc.voting
        let rewards' := calcPower s.minBond s.tokensPerPower newStake sc.reward
        let oldVotes := bi1.votes
        let oldRewards := bi1.rewards
        let bi2 := { bi1 with votes := votes', rewards := rewards' }
        let s2 := { s1 with
          stake := Function.update s1.stake sender
            (Function.update (s1.stake sender) period bi2) }
        let s3 := { s2 with
          claims := Function.update s2.claims sender
            (s2.claims sender ++ [(amount, plusSeconds env.time period)]) }
        match updateMembership s3 sender [oldVotes] [votes'] with
        | .error e => .error e
        | .ok s4 =>
          match updateRewards s4 sender [oldRewards] [rewards'] with
          | .error e => .error e
          | .ok s5 => .ok { s5 with totalStaked :=
              { staked := s5.totalStaked.staked - amount
                unbonding := s5.totalStaked.unbonding + amount } }

/-- `execute_rebond` from `contract.rs`: move stake between buckets.  The
destination is credited *locked* (maturing after the difference of the
periods) when moving to a shorter period (`bond_from > bond_to`), and free
when moving to a longer one. -/
def executeRebond (s : State A) (env : Env) (sender : A)
    (amount bondFrom bondTo : Nat) : Except Err (State A) :=
  if amount = 0 then .error .noRebondAmount
  else if bondFrom = bondTo then .error .sameUnbondingRebond
  else
    match s.stakeConfig bondFrom with
    | none => .error (.noUnbondingPeriodFound bondFrom)
    | some scFrom =>
      if scFrom.staked < amount then .error .underflow
      else
        let scFrom' := { scFrom with staked := scFrom.staked - amount }
        let s1 := { s with
          stakeConfig := Function.update s.stakeConfig bondFrom (some scFrom') }
        match s1.stakeConfig bondTo with
        | none => .error (.noUnbondingPeriodFound bondTo)
        | some scTo =>
          let scTo' := { scTo with staked := scTo.staked + amount }
          let s2 := { s1 with
            stakeConfig := Function.update s1.stakeConfig bondTo (some scTo') }
          let biF := s2.stake sender bondFrom
          match biF.release_stake env amount with
          | .error e => .error e
          | .ok biF1 =>
            let stakeF := biF1.total_stake
            let votesF := calcPower s.minBond s.tokensPerPower stakeF scFrom.voting
            let rewardsF := calcPower s.minBond s.tokensPerPower stakeF scFrom.reward
            let oldVotesFrom := biF1.votes
            let oldRewardsFrom := biF1.rewards
            let biF2 := { biF1 with votes := votesF, rewards := rewardsF }
            let s3 := { s2 with
              stake := Function.update s2.stake sender
                (Function.update (s2.stake sender) bondFrom biF2) }
            let biT := s3.stake sender bondTo
            let biT1 :=
              if bondTo < bondFrom then
                biT.add_locked_tokens (plusSeconds env.time (bondFrom - bondTo)) amount
              else biT.add_unlocked_tokens amount
            let stakeT := biT1.total_stake
            let votesT := calcPower s.minBond s.tokensPerPower stakeT scTo.voting
            let rewardsT := calcPower s.minBond s.tokensPerPower stakeT scTo.reward
            let oldVotesTo := biT1.votes
            let oldRewardsTo := biT1.rewards
            let biT2 := { biT1 with votes := votesT, rewards := rewardsT }
            let s4 := { s3 with
              stake := Function.update s3.stake sender
                (Function.update (s3.stake sender) bondTo biT2) }
            match updateMembership s4 sender [oldVotesTo, oldVotesFrom] [votesT, votesF] with
            | .error e => .error e
            | .ok s5 =>
              match updateRewards s5 sender [oldRewardsTo, oldRewardsFrom]
                  [rewardsT, rewardsF] with
              | .error e => .error e
              | .ok s6 => .ok s6

/-- `execute_claim` from `contract.rs` with `Claims::claim_tokens`: release
every matured claim (release time at or before block time), failing when
nothing matured; the released amount leaves the unbonding counter. -/
def executeClaim (s : State A) (env : Env) (sender : A) : Except Err (State A) :=
  let matured := (s.claims sender).filter fun c => c.2 ≤ env.time
  let release := (matured.map (·.1)).sum
  if release = 0 then .error .nothingToClaim
  else .ok { s with
    claims := Function.update s.claims sender
      ((s.claims sender).filter fun c => ¬ c.2 ≤ env.time)
    totalStaked :=
      { staked := s.totalStaked.staked
        unbonding := s.totalStaked.unbonding - release } }

/-- `execute_distribute_rewards` from `distribution.rs`.  `balance` is the
contract's cw20 balance reported by the external token ledger; the amount to
distribute is that balance minus the (bonded + unbonding) custody and minus
what is already withdrawable. -/
def executeDistributeRewards (s : State A) (balance : Nat) : Except Err (State A) :=
  match s.totalRewards with
  | none => .error .notFound
  | some total =>
    if total = 0 then .error .noMembersToDistributeTo
    else
      let withdrawable := s.distribution.withdrawable_total
      if balance < s.totalStaked.staked + s.totalStaked.unbonding then .error .underflow
      else
        let undistributed := balance - (s.totalStaked.staked + s.totalStaked.unbonding)
        if undistributed < withdrawable then .error .underflow
        else
          let amount := undistributed - withdrawable
          if amount = 0 then .ok s
          else
            match distributePool s.distribution total amount with
            | .error e => .error e
            | .ok d => .ok { s with distribution := d }

/-- `execute_withdraw_rewards` from `distribution.rs` (the outbound cw20
transfer is omitted). -/
def executeWithdrawRewards (s : State A) (sender : A) (owner? : Option A) :
    Except Err (State A) :=
  let owner := owner?.getD sender
  match s.adjustments owner with
  | none => .error .notFound
  | some adj =>
    if sender ≠ owner ∧ sender ≠ adj.delegated then .error .unauthorized
    else
      match withdrawableRewards (s.rewards owner) s.distribution adj with
      | .error e => .error e
      | .ok reward =>
        if reward = 0 then .ok s
        else
          if s.distribution.withdrawable_total < reward then .error .underflow
          else .ok { s with
            adjustments := Function.update s.adjustments owner
              (some { adj with withdrawn_rewards := adj.withdrawn_rewards + reward })
            distribution := { s.distribution with
              withdrawable_total := s.distribution.withdrawable_total - reward } }

/-- `execute_delegate_withdrawal` from `distribution.rs`. -/
def executeDelegateWithdrawal (s : State A) (sender delegated : A) : State A :=
  let adj := (s.adjustments sender).getD ⟨0, 0, delegated⟩
  let adj' := { adj with delegated := delegated }
  { s with adjustments := Function.update s.adjustments sender (some adj') }

/-- One entry of `InstantiateMsg::stake_config`: an unbonding period with its
voting and reward multiplier atomics. -/
structure StakeConfigMsg where
  unbonding_period : Nat
  voting_multiplier : Nat
  reward_multiplier : Nat

/-- `instantiate` from `contract.rs`: `min_bond` is forced to at least 1, one
`STAKE_CONFIG` entry per configured period (`staked` starts at zero), empty
stake/member/reward/adjustment storage, default distribution. -/
def initState (stakeCfg : List StakeConfigMsg) (tokensPerPower minBond : Nat) :
    State A :=
  { stakeConfig := fun p =>
      -- sequential `STAKE_CONFIG.save` per entry: the last entry for a period wins
      (stakeCfg.reverse.find? fun c => c.unbonding_period = p).map fun c =>
        ⟨c.voting_multiplier, c.reward_multiplier, 0⟩
    periods := stakeCfg.map (·.unbonding_period)
    minBond := max minBond 1
    tokensPerPower := tokensPerPower
    stake := fun _ _ => default
    members := fun _ => 0
    totalVotes := 0
    rewards := fun _ => 0
    totalRewards := none
    distribution := default
    adjustments := fun _ => none
    claims := fun _ => []
    totalStaked := ⟨0, 0⟩ }

/-- Reachable states: the initial state and everything a successful command
produces.  Failed commands roll back entirely and produce no new state. -/
inductive Reachable : State A → Prop where
  | init (stakeCfg : List StakeConfigMsg) (tokensPerPower minBond : Nat) :
      Reachable (initState stakeCfg tokensPerPower minBond)
  | bond {s s' : State A} (env : Env) (sender : A) (amount period : Nat) :
      Reachable s → executeBond s env sender amount period = .ok s' → Reachable s'
  | unbond {s s' : State A} (env : Env) (sender : A) (amount period : Nat) :
      Reachable s → executeUnbond s env sender amount period = .ok s' → Reachable s'
  | rebond {s s' : State A} (env : Env) (sender : A) (amount bondFrom bondTo : Nat) :
      Reachable s → executeRebond s env sender amount bondFrom bondTo = .ok s' →
      Reachable s'
  | claim {s s' : State A} (env : Env) (sender : A) :
      Reachable s → executeClaim s env sender = .ok s' → Reachable s'
  | distribute {s s' : State A} (balance : Nat) :
      Reachable s → executeDistributeRewards s balance = .ok s' → Reachable s'
  | withdraw {s s' : State A} (sender : A) (owner? : Option A) :
      Reachable s → executeWithdrawRewards s sender owner? = .ok s' → Reachable s'
  | delegate {s : State A} (sender delegated : A) :
      Reachable s → Reachable (executeDelegateWithdrawal s sender delegated)

/-- Withdrawn rewards of an account (0 when no adjustment record exists). -/
def withdrawnOf (s : State A) (a : A) : Nat :=
  ((s.adjustments a).map (·.withdrawn_rewards)).getD 0

/-- Shares correction of an account (0 when no adjustment record exists). -/
def corrOf (s : State A) (a : A) : Int :=
  ((s.adjustments a).map (·.shares_correction)).getD 0

/-- The adjusted share count `shares_per_point * reward_power + correction`
of an account, in exact signed arithmetic. -/
def adjustedShares (s : State A) (a : A) : Int :=
  (s.distribution.shares_per_point * s.rewards a : Nat) + corrOf s a

/-- `query_withdrawable_rewards` from `distribution.rs`: zero for accounts
without an adjustment record, otherwise `withdrawable_rewards`. -/
def queryWithdrawableRewards (s : State A) (owner : A) : Except Err Nat :=
  match s.adjustments owner with
  | none => .ok 0
  | some adj => withdrawableRewards (s.rewards owner) s.distribution adj

/-- The per-bucket `total_staked` counter (`StakeMultipliers::staked`). -/
def bucketStaked (s : State A) (p : Nat) : Nat :=
  ((s.stakeConfig p).map (·.staked)).getD 0

/-! ### Height-versioned voting-power index

Modelled from the spec and the repository's tests: `MEMBERS`/`TOTAL_VOTES`
are `SnapshotMap`/`SnapshotItem` with `Strategy::EveryBlock` from
`cw-storage-plus`, a dependency whose source is not in the repository.  The
spec (§4.5) describes a height-versioned map; the repository's own test
`contract.rs::tests::cw20_token_bond` pins the read semantics: after bonding
at the initial height, `VotingPowerAtHeight` queried *at* that height still
returns zero, i.e. a query for height `h` reports the state produced by all
writes at heights strictly below `h` (the state at the start of block `h`).
We model the map as its chronological write log; `vmLoadAtHeight` returns
the last write with height `< h`. -/

/-- Chronological write log of one key of the versioned map: `(height, value)`
pairs in write order (heights are block heights, hence nondecreasing). -/
abbrev VersionedMap := List (Nat × Nat)

/-- Record a write at a height. -/
def vmSave (m : VersionedMap) (height value : Nat) : VersionedMap :=
  m ++ [(height, value)]

/-- `may_load_at_height`: the last write with height strictly below `h`. -/
def vmLoadAtHeight (m : VersionedMap) (h : Nat) : Option Nat :=
  ((m.filter fun e => e.1 < h).getLast?).map (·.2)

/-- `may_load`: the current (last written) value. -/
def vmLoadCurrent (m : VersionedMap) : Option Nat :=
  m.getLast?.map (·.2)

/-- `query_voting_power` from `contract.rs` on one account's write log:
returns `(power, height)` with the zero default for missing values and the
current block height when no height was asked. -/
def queryVotingPowerAt (m : VersionedMap) (env : Env) (height : Option Nat) :
    Nat × Nat :=
  match height with
  | some h => ((vmLoadAtHeight m h).getD 0, h)
  | none => ((vmLoadCurrent m).getD 0, env.height)

/-! ### Concrete scenario used by witnesses and counterexamples

A single account, two buckets with unbonding periods 1000 s and 8000 s,
multiplier 1 (`Decimal::one`, atomics `10^18`) for both powers,
`tokens_per_power = 1000`, `min_bond = 1000`. -/

namespace Scenario

/-- The single test account. -/
abbrev Acct := Fin 1

/-- Stake config: periods 1000 and 8000, all multipliers 1. -/
def cfgMsg : List StakeConfigMsg :=
  [⟨1000, 10 ^ 18, 10 ^ 18⟩, ⟨8000, 10 ^ 18, 10 ^ 18⟩]

/-- Block environment at time 0. -/
def env0 : Env := ⟨0, 100⟩

/-- Freshly instantiated contract. -/
def s0 : State Acct := initState cfgMsg 1000 1000

/-- After bonding 20000 tokens into the 1000-second bucket. -/
def s1 : State Acct := ((executeBond s0 env0 0 20000 1000).toOption).getD s0

/-- After rebonding the 20000 tokens upwards, from the 1000-second to the
8000-second bucket. -/
def s2 : State Acct := ((executeRebond s1 env0 0 20000 1000 8000).toOption).getD s0

/-- After rebonding the 20000 tokens back down, from the 8000-second to the
1000-second bucket: this creates a locked entry maturing 7000 seconds after
`env0`. -/
def s3 : State Acct := ((executeRebond s2 env0 0 20000 8000 1000).toOption).getD s0

/-- Block environment 7000 seconds later, at the lock's maturity. -/
def envLater : Env := ⟨plusSeconds 0 7000, 101⟩

end Scenario

/-- The global invariant of reachable states, tying every cached quantity to
the per-record ground truth. -/
structure Inv [Fintype A] (s : State A) : Prop where
  dom : ∀ p, (s.stakeConfig p).isSome ↔ p ∈ s.periods
  off : ∀ p, s.stakeConfig p = none → ∀ a, s.stake a p = default
  votesEq : ∀ a p sc, s.stakeConfig p = some sc →
    (s.stake a p).votes =
      calcPower s.minBond s.tokensPerPower (s.stake a p).total_stake sc.voting
  rewardsEq : ∀ a p sc, s.stakeConfig p = some sc →
    (s.stake a p).rewards =
      calcPower s.minBond s.tokensPerPower (s.stake a p).total_stake sc.reward
  bucket : ∀ p sc, s.stakeConfig p = some sc →
    sc.staked = ∑ a, (s.stake a p).total_stake
  membersEq : ∀ a,
    s.members a = (s.periods.dedup.map fun p => (s.stake a p).votes).sum
  totalVotesEq : s.totalVotes = ∑ a, s.members a
  rewardsMapEq : ∀ a,
    s.rewards a = (s.periods.dedup.map fun p => (s.stake a p).rewards).sum
  totalRewardsEq : s.totalRewards.getD 0 = ∑ a, s.rewards a
  adjNone : ∀ a, s.adjustments a = none → s.rewards a = 0
  sharesNonneg : ∀ a, 0 ≤ adjustedShares s a
  withdrawnLe : ∀ a, withdrawnOf s a ≤ (adjustedShares s a).toNat / 2 ^ SHARES_SHIFT
  pool : s.distribution.withdrawable_total + ∑ a, withdrawnOf s a =
    s.distribution.distributed_total
  leftoverLt : s.distribution.shares_leftover < 2 ^ 64
  minBondPos : 1 ≤ s.minBond

/-! ## Lemmas about `BondingInfo` -/

theorem BondingInfo.total_stake_add_unlocked (b : BondingInfo) (n : Nat) :
    (b.add_unlocked_tokens n).total_stake = b.total_stake + n := by
  simp only [BondingInfo.add_unlocked_tokens, BondingInfo.total_stake]
  omega

theorem BondingInfo.insertLocked_map_sum (l : List (Timestamp × Nat))
    (x : Timestamp × Nat) :
    ((BondingInfo.insertLocked l x).map (·.2)).sum = (l.map (·.2)).sum + x.2 := by
  induction l with
  | nil => simp [BondingInfo.insertLocked]
  | cons y ys ih =>
    simp only [BondingInfo.insertLocked]
    split
    · simp only [List.map_cons, List.sum_cons]; omega
    · split
      · simp only [List.map_cons, List.sum_cons]; omega
      · simp only [List.map_cons, List.sum_cons, ih]; omega

theorem BondingInfo.total_stake_add_locked (b : BondingInfo) (t : Timestamp)
    (n : Nat) : (b.add_locked_tokens t n).total_stake = b.total_stake + n := by
  simp only [BondingInfo.add_locked_tokens, BondingInfo.total_stake,
    BondingInfo.insertLocked_map_sum]
  omega

theorem BondingInfo.sum_filter_matured_add_rest (l : List (Timestamp × Nat))
    (t : Timestamp) :
    ((l.filter fun e => e.1 ≤ t).map (·.2)).sum
      + ((l.filter fun e => ¬ e.1 ≤ t).map (·.2)).sum = (l.map (·.2)).sum := by
  induction l with
  | nil => simp
  | cons y ys ih =>
    simp only [List.filter_cons]
    by_cases h : y.1 ≤ t
    · rw [if_pos (by simpa using h), if_neg (by simpa using h)]
      simp only [List.map_cons, List.sum_cons]; omega
    · rw [if_neg (by simpa using h), if_pos (by simpa using h)]
      simp only [List.map_cons, List.sum_cons]; omega

theorem BondingInfo.total_stake_free_unlocked (b : BondingInfo) (env : Env) :
    (b.free_unlocked_tokens env).total_stake = b.total_stake := by
  simp only [BondingInfo.free_unlocked_tokens, BondingInfo.total_stake]
  have := BondingInfo.sum_filter_matured_add_rest b.locked_tokens env.time
  omega

theorem BondingInfo.free_unlocked_stake (b : BondingInfo) (env : Env) :
    (b.free_unlocked_tokens env).stake = b.total_unlocked env := rfl

theorem BondingInfo.total_unlocked_le (b : BondingInfo) (env : Env) :
    b.total_unlocked env ≤ b.total_stake := by
  simp only [BondingInfo.total_unlocked, BondingInfo.total_stake]
  have := BondingInfo.sum_filter_matured_add_rest b.locked_tokens env.time
  omega

theorem BondingInfo.release_stake_error {b : BondingInfo} {env : Env} {n : Nat}
    (h : b.total_unlocked env < n) : b.release_stake env n = .error .underflow := by
  simp only [BondingInfo.release_stake, BondingInfo.free_unlocked_stake]
  rw [if_pos h]

theorem BondingInfo.release_stake_ok {b b' : BondingInfo} {env : Env} {n : Nat}
    (h : b.release_stake env n = .ok b') :
    n ≤ b.total_unlocked env ∧
    b'.stake = b.total_unlocked env - n ∧
    b'.votes = b.votes ∧ b'.rewards = b.rewards ∧
    b'.locked_tokens = b.locked_tokens.filter (fun e => ¬ e.1 ≤ env.time) ∧
    b'.total_stake + n = b.total_stake := by
  simp only [BondingInfo.release_stake] at h
  split at h
  · exact absurd h (by simp)
  · rename_i hle
    injection h with h
    subst h
    have hfree := BondingInfo.total_stake_free_unlocked b env
    have hle' : n ≤ (b.free_unlocked_tokens env).stake := by omega
    refine ⟨by rw [← BondingInfo.free_unlocked_stake]; omega, rfl, rfl, rfl, rfl, ?_⟩
    simp only [BondingInfo.total_stake] at hfree ⊢
    simp only [BondingInfo.free_unlocked_tokens] at hfree hle' ⊢
    omega

theorem BondingInfo.release_stake_isOk {b : BondingInfo} {env : Env} {n : Nat}
    (h : n ≤ b.total_unlocked env) :
    b.release_stake env n = .ok
      { b.free_unlocked_tokens env with
        stake := (b.free_unlocked_tokens env).stake - n } := by
  simp only [BondingInfo.release_stake]
  rw [if_neg (by rw [BondingInfo.free_unlocked_stake]; omega)]

/-! ## Sum bookkeeping lemmas -/

theorem update_apply_comp {κ β γ : Type _} [DecidableEq κ] (F : β → γ)
    (f : κ → β) (k : κ) (v : β) :
    (fun x => F (Function.update f k v x)) = Function.update (fun x => F (f x)) k (F v) := by
  funext x
  by_cases h : x = k <;> simp [Function.update_apply, h]

theorem sum_univ_update {A : Type _} [DecidableEq A] [Fintype A] (f : A → Nat)
    (a : A) (v : Nat) :
    (∑ b, Function.update f a v b) + f a = (∑ b, f b) + v := by
  rw [Finset.sum_update_of_mem (Finset.mem_univ a)]
  rw [← Finset.sum_erase_add Finset.univ f (Finset.mem_univ a)]
  rw [Finset.sdiff_singleton_eq_erase]
  omega

theorem list_map_sum_update {l : List Nat} (hl : l.Nodup) {p : Nat}
    (hp : p ∈ l) (f : Nat → Nat) (v : Nat) :
    (l.map (Function.update f p v)).sum + f p = (l.map f).sum + v := by
  induction l with
  | nil => cases hp
  | cons x xs ih =>
    rcases List.mem_cons.mp hp with rfl | hp'
    · have hnx : p ∉ xs := (List.nodup_cons.mp hl).1
      have hxs : (xs.map (Function.update f p v)) = xs.map f := by
        refine List.map_congr_left fun q hq => ?_
        exact Function.update_noteq (by rintro rfl; exact hnx hq) _ _
      simp only [List.map_cons, List.sum_cons, Function.update_same, hxs]
      omega
    · have hxp : x ≠ p := by rintro rfl; exact (List.nodup_cons.mp hl).1 hp'
      have := ih (List.nodup_cons.mp hl).2 hp'
      simp only [List.map_cons, List.sum_cons, Function.update_noteq hxp]
      omega

theorem list_map_sum_update_not_mem {l : List Nat} {p : Nat} (hp : p ∉ l)
    (f : Nat → Nat) (v : Nat) :
    (l.map (Function.update f p v)).sum = (l.map f).sum := by
  congr 1
  refine List.map_congr_left fun q hq => ?_
  exact Function.update_noteq (by rintro rfl; exact hp hq) _ _

theorem list_sum_sum_comm {A : Type _} [Fintype A] (l : List Nat) (g : A → Nat → Nat) :
    (l.map fun p => ∑ a, g a p).sum = ∑ a, (l.map (g a)).sum := by
  induction l with
  | nil => simp
  | cons x xs ih => simp [List.map_cons, List.sum_cons, ih, Finset.sum_add_distrib]

/-! ## Case analyses of `update_membership` / `update_rewards` -/

theorem updateMembership_ok {s s' : State A} {sender : A} {oldV newV : List Nat}
    (h : updateMembership s sender oldV newV = .ok s') :
    (newV.sum = oldV.sum ∧ s' = s) ∨
    (newV.sum ≠ oldV.sum ∧ oldV.sum ≤ s.members sender + newV.sum ∧
      oldV.sum ≤ s.totalVotes + newV.sum ∧
      s' = { s with
        members := Function.update s.members sender
          (s.members sender + newV.sum - oldV.sum)
        totalVotes := s.totalVotes + newV.sum - oldV.sum }) := by
  simp only [updateMembership] at h
  split at h
  · injection h with h; exact Or.inl ⟨by assumption, h.symm⟩
  · split at h
    · exact absurd h (by simp)
    · split at h
      · exact absurd h (by simp)
      · injection h with h
        refine Or.inr ⟨by assumption, by omega, by omega, h.symm⟩

theorem updateMembership_isOk {s : State A} {sender : A} {oldV newV : List Nat}
    (h1 : oldV.sum ≤ s.members sender + newV.sum)
    (h2 : oldV.sum ≤ s.totalVotes + newV.sum) :
    ∃ s', updateMembership s sender oldV newV = .ok s' := by
  simp only [updateMembership]
  split
  · exact ⟨s, rfl⟩
  · rw [if_neg (by omega), if_neg (by omega)]
    exact ⟨_, rfl⟩

theorem updateRewards_ok {s s' : State A} {sender : A} {oldV newV : List Nat}
    (h : updateRewards s sender oldV newV = .ok s') :
    (oldV.sum = newV.sum ∧ s' = s) ∨
    (oldV.sum ≠ newV.sum ∧ oldV.sum ≤ s.rewards sender + newV.sum ∧
      oldV.sum ≤ s.totalRewards.getD 0 + newV.sum ∧
      s' = { s with
        rewards := Function.update s.rewards sender
          (s.rewards sender + newV.sum - oldV.sum)
        totalRewards := some (s.totalRewards.getD 0 + newV.sum - oldV.sum)
        adjustments := Function.update s.adjustments sender (some
          { (s.adjustments sender).getD ⟨0, 0, sender⟩ with
            shares_correction :=
              ((s.adjustments sender).getD ⟨0, 0, sender⟩).shares_correction
                - s.distribution.shares_per_point * ((newV.sum : Int) - oldV.sum) }) }) := by
  simp only [updateRewards, applyPointsCorrection] at h
  split at h
  · injection h with h; exact Or.inl ⟨by assumption, h.symm⟩
  · split at h
    · exact absurd h (by simp)
    · split at h
      · exact absurd h (by simp)
      · injection h with h
        refine Or.inr ⟨by assumption, by omega, by omega, h.symm⟩

theorem updateRewards_isOk {s : State A} {sender : A} {oldV newV : List Nat}
    (h1 : oldV.sum ≤ s.rewards sender + newV.sum)
    (h2 : oldV.sum ≤ s.totalRewards.getD 0 + newV.sum) :
    ∃ s', updateRewards s sender oldV newV = .ok s' := by
  simp only [updateRewards]
  split
  · exact ⟨s, rfl⟩
  · rw [if_neg (by omega), if_neg (by omega)]
    exact ⟨_, rfl⟩

theorem updateMembership_ok_spec {s s' : State A} {sender : A} {oldV newV : List Nat}
    (h : updateMembership s sender oldV newV = .ok s') :
    oldV.sum ≤ s.members sender + newV.sum ∧
    s'.members = Function.update s.members sender
      (s.members sender + newV.sum - oldV.sum) ∧
    s'.totalVotes = s.totalVotes + newV.sum - oldV.sum ∧
    s'.stakeConfig = s.stakeConfig ∧ s'.periods = s.periods ∧
    s'.minBond = s.minBond ∧ s'.tokensPerPower = s.tokensPerPower ∧
    s'.stake = s.stake ∧ s'.rewards = s.rewards ∧
    s'.totalRewards = s.totalRewards ∧ s'.distribution = s.distribution ∧
    s'.adjustments = s.adjustments ∧ s'.claims = s.claims ∧
    s'.totalStaked = s.totalStaked := by
  rcases updateMembership_ok h with ⟨he, hs⟩ | ⟨_, h1, _, hs⟩
  · rw [hs]
    have hv : s.members sender + newV.sum - oldV.sum = s.members sender := by omega
    rw [hv, Function.update_eq_self]
    exact ⟨by omega, rfl, by omega, rfl, rfl, rfl, rfl, rfl, rfl, rfl, rfl, rfl, rfl, rfl⟩
  · rw [hs]
    exact ⟨h1, rfl, rfl, rfl, rfl, rfl, rfl, rfl, rfl, rfl, rfl, rfl, rfl, rfl⟩

theorem updateRewards_ok_spec {s s' : State A} {sender : A} {oldV newV : List Nat}
    (h : updateRewards s sender oldV newV = .ok s') :
    oldV.sum ≤ s.rewards sender + newV.sum ∧
    s'.rewards = Function.update s.rewards sender
      (s.rewards sender + newV.sum - oldV.sum) ∧
    s'.totalRewards.getD 0 = s.totalRewards.getD 0 + newV.sum - oldV.sum ∧
    (∀ b, corrOf s' b = corrOf s b
      - s.distribution.shares_per_point * ((s'.rewards b : Int) - (s.rewards b : Int))) ∧
    (∀ b, withdrawnOf s' b = withdrawnOf s b) ∧
    (∀ b, s'.adjustments b = none → s.adjustments b = none ∧ s'.rewards b = s.rewards b) ∧
    s'.stakeConfig = s.stakeConfig ∧ s'.periods = s.periods ∧
    s'.minBond = s.minBond ∧ s'.tokensPerPower = s.tokensPerPower ∧
    s'.stake = s.stake ∧ s'.members = s.members ∧ s'.totalVotes = s.totalVotes ∧
    s'.distribution = s.distribution ∧ s'.claims = s.claims ∧
    s'.totalStaked = s.totalStaked := by
  rcases updateRewards_ok h with ⟨he, hs⟩ | ⟨hne, h1, _, hs⟩
  · rw [hs]
    have hv : s.rewards sender + newV.sum - oldV.sum = s.rewards sender := by omega
    rw [hv, Function.update_eq_self]
    refine ⟨by omega, rfl, by omega, fun b => ?_, fun b => rfl, fun b hb => ⟨hb, rfl⟩,
      rfl, rfl, rfl, rfl, rfl, rfl, rfl, rfl, rfl, rfl⟩
    simp
  · rw [hs]
    refine ⟨h1, rfl, rfl, fun b => ?_, fun b => ?_, fun b hb => ?_,
      rfl, rfl, rfl, rfl, rfl, rfl, rfl, rfl, rfl, rfl⟩
    · by_cases hb : b = sender
      · subst hb
        simp only [corrOf, Function.update_same]
        have harith : ((s.rewards b + newV.sum - oldV.sum : Nat) : Int) - (s.rewards b : Nat) =
            (newV.sum : Int) - oldV.sum := by omega
        rw [harith]
        cases hadj : s.adjustments b <;> simp [hadj]
      · simp only [corrOf, Function.update_noteq hb]
        simp
    · by_cases hb : b = sender
      · subst hb
        simp only [withdrawnOf, Function.update_same]
        cases hadj : s.adjustments b <;> simp [hadj]
      · simp only [withdrawnOf, Function.update_noteq hb]
    · by_cases hbs : b = sender
      · subst hbs; simp [Function.update_same] at hb
      · exact ⟨by simpa [Function.update_noteq hbs] using hb, Function.update_noteq hbs _ _⟩

/-- A member of a list is at most the sum of the mapped list. -/
theorem element_le_list_sum {l : List Nat} {p : Nat} (hp : p ∈ l) (f : Nat → Nat) :
    f p ≤ (l.map f).sum :=
  List.single_le_sum (fun x _ => Nat.zero_le x) _ (List.mem_map_of_mem f hp)

/-! ## The invariant holds initially -/

theorem list_sum_map_const_zero {α : Type _} (l : List α) :
    (l.map fun _ => (0 : Nat)).sum = 0 := by
  induction l <;> simp [*]

theorem inv_init [Fintype A] (stakeCfg : List StakeConfigMsg)
    (tokensPerPower minBond : Nat) :
    Inv (initState (A := A) stakeCfg tokensPerPower minBond) := by
  constructor
  · intro p
    simp [initState, Option.isSome_map', List.find?_isSome, List.mem_reverse,
      List.mem_map, decide_eq_true_eq]
  · intro p _ a; rfl
  · intro a p sc _
    have hst : (initState (A := A) stakeCfg tokensPerPower minBond).stake a p = default := rfl
    have hmb : (initState (A := A) stakeCfg tokensPerPower minBond).minBond =
      max minBond 1 := rfl
    have htp : (initState (A := A) stakeCfg tokensPerPower minBond).tokensPerPower =
      tokensPerPower := rfl
    rw [hst, hmb, htp]
    have h0 : (default : BondingInfo).total_stake = 0 := rfl
    rw [h0]
    simp only [calcPower]
    rw [if_pos (by omega)]
    rfl
  · intro a p sc _
    have hst : (initState (A := A) stakeCfg tokensPerPower minBond).stake a p = default := rfl
    have hmb : (initState (A := A) stakeCfg tokensPerPower minBond).minBond =
      max minBond 1 := rfl
    have htp : (initState (A := A) stakeCfg tokensPerPower minBond).tokensPerPower =
      tokensPerPower := rfl
    rw [hst, hmb, htp]
    have h0 : (default : BondingInfo).total_stake = 0 := rfl
    rw [h0]
    simp only [calcPower]
    rw [if_pos (by omega)]
    rfl
  · intro p sc hsc
    simp only [initState, Option.map_eq_some'] at hsc
    rcases hsc with ⟨c, -, rfl⟩
    have h4 : ∀ a : A,
        ((initState (A := A) stakeCfg tokensPerPower minBond).stake a p).total_stake = 0 :=
      fun _ => rfl
    simp [h4]
  · intro a
    have hv : (default : BondingInfo).votes = 0 := rfl
    simp [initState, hv, list_sum_map_const_zero]
  · simp [initState]
  · intro a
    have hr : (default : BondingInfo).rewards = 0 := rfl
    simp [initState, hr, list_sum_map_const_zero]
  · simp [initState]
  · intro a _; rfl
  · intro a; simp [adjustedShares, corrOf, initState]
  · intro a; simp [withdrawnOf, initState]
  · have h1 : ∀ a : A,
        withdrawnOf (initState (A := A) stakeCfg tokensPerPower minBond) a = 0 :=
      fun _ => rfl
    show (0 : Nat) + ∑ a : A,
        withdrawnOf (initState (A := A) stakeCfg tokensPerPower minBond) a = 0
    simp [h1]
  · show (0 : Nat) < 2 ^ 64
    norm_num
  · show 1 ≤ max minBond 1
    exact le_max_right _ _

/-! ## Invariant preservation -/

theorem inv_of_eq_fields [Fintype A] {s s' : State A} (hI : Inv s)
    (h1 : s'.stakeConfig = s.stakeConfig) (h2 : s'.periods = s.periods)
    (h3 : s'.minBond = s.minBond) (h4 : s'.tokensPerPower = s.tokensPerPower)
    (h5 : s'.stake = s.stake) (h6 : s'.members = s.members)
    (h7 : s'.totalVotes = s.totalVotes) (h8 : s'.rewards = s.rewards)
    (h9 : s'.totalRewards = s.totalRewards) (h10 : s'.distribution = s.distribution)
    (h11 : s'.adjustments = s.adjustments) : Inv s' := by
  have hadj : ∀ b, adjustedShares s' b = adjustedShares s b := by
    intro b; simp [adjustedShares, corrOf, h8, h10, h11]
  have hwd : ∀ b, withdrawnOf s' b = withdrawnOf s b := by
    intro b; simp [withdrawnOf, h11]
  constructor
  · intro p; rw [h1, h2]; exact hI.dom p
  · intro p hp b; rw [h5]; exact hI.off p (h1 ▸ hp) b
  · intro b p sc hsc; rw [h5, h3, h4]; exact hI.votesEq b p sc (h1 ▸ hsc)
  · intro b p sc hsc; rw [h5, h3, h4]; exact hI.rewardsEq b p sc (h1 ▸ hsc)
  · intro p sc hsc; rw [h5]; exact hI.bucket p sc (h1 ▸ hsc)
  · intro b; rw [h6, h2, h5]; exact hI.membersEq b
  · rw [h7, h6]; exact hI.totalVotesEq
  · intro b; rw [h8, h2, h5]; exact hI.rewardsMapEq b
  · rw [h9, h8]; exact hI.totalRewardsEq
  · intro b hb; rw [h8]; exact hI.adjNone b (h11 ▸ hb)
  · intro b; rw [hadj b]; exact hI.sharesNonneg b
  · intro b; rw [hwd b, hadj b]; exact hI.withdrawnLe b
  · rw [h10]
    have : (∑ b, withdrawnOf s' b) = ∑ b, withdrawnOf s b := Finset.sum_congr rfl fun b _ => hwd b
    rw [this]; exact hI.pool
  · rw [h10]; exact hI.leftoverLt
  · rw [h3]; exact hI.minBondPos

/-- The common tail of `execute_bond` and `execute_unbond`: starting from an
invariant state, update one bucket's `staked` counter and one stake record
consistently, then run `update_membership` and `update_rewards`; the
invariant holds again. -/
theorem inv_tail_single [Fintype A] {s s3 s4 : State A} {a : A} {p : Nat}
    {sc : StakeMultipliers} {bi2 : BondingInfo} {stkd : Nat}
    {clms : A → List (Nat × Timestamp)}
    (hI : Inv s) (hc : s.stakeConfig p = some sc)
    (hv2 : bi2.votes = calcPower s.minBond s.tokensPerPower bi2.total_stake sc.voting)
    (hr2 : bi2.rewards = calcPower s.minBond s.tokensPerPower bi2.total_stake sc.reward)
    (hstkd : stkd + (s.stake a p).total_stake = sc.staked + bi2.total_stake)
    (hm : updateMembership
      { s with
        stakeConfig := Function.update s.stakeConfig p (some { sc with staked := stkd })
        stake := Function.update s.stake a (Function.update (s.stake a) p bi2)
        claims := clms }
      a [(s.stake a p).votes] [bi2.votes] = .ok s3)
    (hr : updateRewards s3 a [(s.stake a p).rewards] [bi2.rewards] = .ok s4) :
    Inv s4 := by
  have hpmem : p ∈ s.periods := (hI.dom p).mp (by rw [hc]; rfl)
  have hpd : p ∈ s.periods.dedup := List.mem_dedup.mpr hpmem
  have hnd : s.periods.dedup.Nodup := List.nodup_dedup _
  obtain ⟨hm1, hmm, hmtv, hmcfg, hmper, hmmin, hmtpp, hmstk, hmrw, hmtr, hmdist,
    hmadj, hmclm, hmts⟩ := updateMembership_ok_spec hm
  obtain ⟨hr1, hrrw, hrtr, hrcorr, hrwd, hrnone, hrcfg, hrper, hrmin, hrtpp,
    hrstk, hrmem, hrtv, hrdist, hrclm, hrts⟩ := updateRewards_ok_spec hr
  simp only [List.sum_cons, List.sum_nil, Nat.add_zero] at hm1 hmm hmtv hr1 hrrw hrtr hrcorr
  -- field values of the intermediate state (definitional projections)
  have hOV : (s.stake a p).votes ≤ s.members a + bi2.votes := hm1
  have hsc' : s4.stakeConfig =
      Function.update s.stakeConfig p (some { sc with staked := stkd }) := by
    rw [hrcfg, hmcfg]
  have hstake : s4.stake =
      Function.update s.stake a (Function.update (s.stake a) p bi2) := by
    rw [hrstk, hmstk]
  have hper : s4.periods = s.periods := by rw [hrper, hmper]
  have hmin : s4.minBond = s.minBond := by rw [hrmin, hmmin]
  have htpp : s4.tokensPerPower = s.tokensPerPower := by rw [hrtpp, hmtpp]
  have hdist : s4.distribution = s.distribution := by rw [hrdist, hmdist]
  have hmem4 : s4.members =
      Function.update s.members a (s.members a + bi2.votes - (s.stake a p).votes) := by
    rw [hrmem, hmm]
  have htv4 : s4.totalVotes = s.totalVotes + bi2.votes - (s.stake a p).votes := by
    rw [hrtv, hmtv]
  have hrw4 : s4.rewards =
      Function.update s.rewards a (s.rewards a + bi2.rewards - (s.stake a p).rewards) := by
    rw [hrrw, hmrw]
  have htr4 : s4.totalRewards.getD 0 =
      s.totalRewards.getD 0 + bi2.rewards - (s.stake a p).rewards := by
    rw [hrtr, hmtr]
  have hr1' : (s.stake a p).rewards ≤ s.rewards a + bi2.rewards := by
    rw [hmrw] at hr1; exact hr1
  -- votes of the row after the update, as a `Function.update` of the old row
  have hrowv : (fun q => ((Function.update (s.stake a) p bi2) q).votes) =
      Function.update (fun q => (s.stake a q).votes) p bi2.votes :=
    update_apply_comp _ _ _ _
  have hrowr : (fun q => ((Function.update (s.stake a) p bi2) q).rewards) =
      Function.update (fun q => (s.stake a q).rewards) p bi2.rewards :=
    update_apply_comp _ _ _ _
  have hmadjC : s3.adjustments = s.adjustments := hmadj
  have hmrwC : s3.rewards = s.rewards := hmrw
  have hmdistC : s3.distribution = s.distribution := hmdist
  have hco : ∀ b, corrOf s4 b = corrOf s b -
      (s.distribution.shares_per_point : Int) * ((s4.rewards b : Int) - (s.rewards b : Int)) := by
    intro b
    have h1 := hrcorr b
    rw [show corrOf s3 b = corrOf s b from by simp only [corrOf, hmadjC]] at h1
    rw [hmdistC] at h1
    rw [show s3.rewards b = s.rewards b from by rw [hmrwC]] at h1
    exact h1
  have hpres : ∀ b, adjustedShares s4 b = adjustedShares s b := by
    intro b
    simp only [adjustedShares, hdist, hco]
    push_cast
    ring
  have hwd4 : ∀ b, withdrawnOf s4 b = withdrawnOf s b := by
    intro b
    rw [hrwd b]
    simp only [withdrawnOf, hmadjC]
  constructor
  · intro q
    rw [hsc', hper]
    by_cases hq : p = q
    · subst hq
      rw [Function.update_same]
      simpa using hpmem
    · rw [Function.update_noteq (Ne.symm hq)]
      exact hI.dom q
  · intro q hq b
    rw [hsc'] at hq
    by_cases hqp : p = q
    · subst hqp; rw [Function.update_same] at hq; cases hq
    · rw [Function.update_noteq (Ne.symm hqp)] at hq
      rw [hstake]
      by_cases hba : a = b
      · subst hba
        rw [Function.update_same, Function.update_noteq (Ne.symm hqp)]
        exact hI.off q hq a
      · rw [Function.update_noteq (Ne.symm hba)]
        exact hI.off q hq b
  · intro b q sc₂ hsc₂
    rw [hsc'] at hsc₂
    rw [hstake, hmin, htpp]
    by_cases hqp : p = q
    · subst hqp
      rw [Function.update_same] at hsc₂
      injection hsc₂ with hsc₂
      subst hsc₂
      by_cases hba : a = b
      · subst hba
        rw [Function.update_same, Function.update_same]
        exact hv2
      · rw [Function.update_noteq (Ne.symm hba)]
        exact hI.votesEq b p sc hc
    · rw [Function.update_noteq (Ne.symm hqp)] at hsc₂
      by_cases hba : a = b
      · subst hba
        rw [Function.update_same, Function.update_noteq (Ne.symm hqp)]
        exact hI.votesEq a q sc₂ hsc₂
      · rw [Function.update_noteq (Ne.symm hba)]
        exact hI.votesEq b q sc₂ hsc₂
  · intro b q sc₂ hsc₂
    rw [hsc'] at hsc₂
    rw [hstake, hmin, htpp]
    by_cases hqp : p = q
    · subst hqp
      rw [Function.update_same] at hsc₂
      injection hsc₂ with hsc₂
      subst hsc₂
      by_cases hba : a = b
      · subst hba
        rw [Function.update_same, Function.update_same]
        exact hr2
      · rw [Function.update_noteq (Ne.symm hba)]
        exact hI.rewardsEq b p sc hc
    · rw [Function.update_noteq (Ne.symm hqp)] at hsc₂
      by_cases hba : a = b
      · subst hba
        rw [Function.update_same, Function.update_noteq (Ne.symm hqp)]
        exact hI.rewardsEq a q sc₂ hsc₂
      · rw [Function.update_noteq (Ne.symm hba)]
        exact hI.rewardsEq b q sc₂ hsc₂
  · intro q sc₂ hsc₂
    rw [hsc'] at hsc₂
    rw [hstake]
    by_cases hqp : p = q
    · subst hqp
      rw [Function.update_same] at hsc₂
      injection hsc₂ with hsc₂
      subst hsc₂
      have hcmp : (fun b => ((Function.update s.stake a
            (Function.update (s.stake a) p bi2)) b p).total_stake) =
          Function.update (fun b => (s.stake b p).total_stake) a
            ((Function.update (s.stake a) p bi2) p).total_stake :=
        update_apply_comp (fun row => (row p).total_stake) s.stake a _
      rw [Function.update_same] at hcmp
      show ({ sc with staked := stkd } : StakeMultipliers).staked =
        ∑ b, ((Function.update s.stake a (Function.update (s.stake a) p bi2)) b p).total_stake
      rw [show (∑ b, ((Function.update s.stake a (Function.update (s.stake a) p bi2)) b p).total_stake)
          = ∑ b, Function.update (fun c => (s.stake c p).total_stake) a bi2.total_stake b from
        Finset.sum_congr rfl fun b _ => congrFun hcmp b]
      have hsum := sum_univ_update (fun b => (s.stake b p).total_stake) a bi2.total_stake
      have hold := hI.bucket p sc hc
      have hstkd' : ({ sc with staked := stkd } : StakeMultipliers).staked = stkd := rfl
      rw [hstkd']
      omega
    · rw [Function.update_noteq (Ne.symm hqp)] at hsc₂
      have heq : ∀ b, ((Function.update s.stake a (Function.update (s.stake a) p bi2)) b q).total_stake
          = (s.stake b q).total_stake := by
        intro b
        by_cases hba : a = b
        · subst hba; rw [Function.update_same, Function.update_noteq (Ne.symm hqp)]
        · rw [Function.update_noteq (Ne.symm hba)]
      rw [Finset.sum_congr rfl fun b _ => heq b]
      exact hI.bucket q sc₂ hsc₂
  · intro b
    rw [hmem4, hper, hstake]
    by_cases hba : a = b
    · subst hba
      simp only [Function.update_same]
      rw [hrowv]
      have hsum := list_map_sum_update hnd hpd (fun q => (s.stake a q).votes) bi2.votes
      have hold := hI.membersEq a
      omega
    · rw [Function.update_noteq (Ne.symm hba), Function.update_noteq (Ne.symm hba)]
      exact hI.membersEq b
  · rw [htv4, hmem4]
    have hsum := sum_univ_update s.members a (s.members a + bi2.votes - (s.stake a p).votes)
    have hold := hI.totalVotesEq
    omega
  · intro b
    rw [hrw4, hper, hstake]
    by_cases hba : a = b
    · subst hba
      simp only [Function.update_same]
      rw [hrowr]
      have hsum := list_map_sum_update hnd hpd (fun q => (s.stake a q).rewards) bi2.rewards
      have hold := hI.rewardsMapEq a
      omega
    · rw [Function.update_noteq (Ne.symm hba), Function.update_noteq (Ne.symm hba)]
      exact hI.rewardsMapEq b
  · rw [htr4, hrw4]
    have hsum := sum_univ_update s.rewards a (s.rewards a + bi2.rewards - (s.stake a p).rewards)
    have hold := hI.totalRewardsEq
    omega
  · intro b hb
    rcases hrnone b hb with ⟨hb3, hbeq⟩
    rw [hmadjC] at hb3
    rw [hbeq, hmrwC]
    exact hI.adjNone b hb3
  · intro b
    rw [hpres b]
    exact hI.sharesNonneg b
  · intro b
    rw [hpres b, hwd4 b]
    exact hI.withdrawnLe b
  · rw [hdist]
    rw [Finset.sum_congr rfl fun b _ => hwd4 b]
    exact hI.pool
  · rw [hdist]; exact hI.leftoverLt
  · rw [hmin]; exact hI.minBondPos

/-- Double update of a list-mapped sum at two distinct members. -/
theorem list_map_sum_update2 {l : List Nat} (hl : l.Nodup) {pF pT : Nat}
    (hne : pF ≠ pT) (hpF : pF ∈ l) (hpT : pT ∈ l) (f : Nat → Nat) (vF vT : Nat) :
    (l.map (Function.update (Function.update f pF vF) pT vT)).sum + f pT + f pF
      = (l.map f).sum + vT + vF := by
  have h1 := list_map_sum_update hl hpT (Function.update f pF vF) vT
  have h2 := list_map_sum_update hl hpF f vF
  rw [Function.update_noteq (Ne.symm hne)] at h1
  omega

/-- The common tail of `execute_rebond`: update two buckets' `staked`
counters and the two stake records of one account consistently, then run
`update_membership` and `update_rewards` once over the combined deltas. -/
theorem inv_tail_double [Fintype A] {s s3 s4 : State A} {a : A} {pF pT : Nat}
    {scF scT : StakeMultipliers} {biF2 biT2 : BondingInfo} {stkdF stkdT : Nat}
    (hne : pF ≠ pT)
    (hI : Inv s) (hcF : s.stakeConfig pF = some scF) (hcT : s.stakeConfig pT = some scT)
    (hvF : biF2.votes = calcPower s.minBond s.tokensPerPower biF2.total_stake scF.voting)
    (hrF : biF2.rewards = calcPower s.minBond s.tokensPerPower biF2.total_stake scF.reward)
    (hvT : biT2.votes = calcPower s.minBond s.tokensPerPower biT2.total_stake scT.voting)
    (hrT : biT2.rewards = calcPower s.minBond s.tokensPerPower biT2.total_stake scT.reward)
    (hstkdF : stkdF + (s.stake a pF).total_stake = scF.staked + biF2.total_stake)
    (hstkdT : stkdT + (s.stake a pT).total_stake = scT.staked + biT2.total_stake)
    (hm : updateMembership
      { s with
        stakeConfig := Function.update
          (Function.update s.stakeConfig pF (some { scF with staked := stkdF }))
          pT (some { scT with staked := stkdT })
        stake := Function.update s.stake a
          (Function.update (Function.update (s.stake a) pF biF2) pT biT2) }
      a [(s.stake a pT).votes, (s.stake a pF).votes] [biT2.votes, biF2.votes] = .ok s3)
    (hr : updateRewards s3 a [(s.stake a pT).rewards, (s.stake a pF).rewards]
      [biT2.rewards, biF2.rewards] = .ok s4) :
    Inv s4 := by
  have hpFmem : pF ∈ s.periods := (hI.dom pF).mp (by rw [hcF]; rfl)
  have hpTmem : pT ∈ s.periods := (hI.dom pT).mp (by rw [hcT]; rfl)
  have hpFd : pF ∈ s.periods.dedup := List.mem_dedup.mpr hpFmem
  have hpTd : pT ∈ s.periods.dedup := List.mem_dedup.mpr hpTmem
  have hnd : s.periods.dedup.Nodup := List.nodup_dedup _
  obtain ⟨hm1, hmm, hmtv, hmcfg, hmper, hmmin, hmtpp, hmstk, hmrw, hmtr, hmdist,
    hmadj, hmclm, hmts⟩ := updateMembership_ok_spec hm
  obtain ⟨hr1, hrrw, hrtr, hrcorr, hrwd, hrnone, hrcfg, hrper, hrmin, hrtpp,
    hrstk, hrmem, hrtv, hrdist, hrclm, hrts⟩ := updateRewards_ok_spec hr
  simp only [List.sum_cons, List.sum_nil, Nat.add_zero] at hm1 hmm hmtv hr1 hrrw hrtr hrcorr
  have hsc' : s4.stakeConfig = Function.update
      (Function.update s.stakeConfig pF (some { scF with staked := stkdF }))
      pT (some { scT with staked := stkdT }) := by
    rw [hrcfg, hmcfg]
  have hstake : s4.stake = Function.update s.stake a
      (Function.update (Function.update (s.stake a) pF biF2) pT biT2) := by
    rw [hrstk, hmstk]
  have hper : s4.periods = s.periods := by rw [hrper, hmper]
  have hmin : s4.minBond = s.minBond := by rw [hrmin, hmmin]
  have htpp : s4.tokensPerPower = s.tokensPerPower := by rw [hrtpp, hmtpp]
  have hdist : s4.distribution = s.distribution := by rw [hrdist, hmdist]
  have hmem4 : s4.members = Function.update s.members a
      (s.members a + (biT2.votes + biF2.votes)
        - ((s.stake a pT).votes + (s.stake a pF).votes)) := by
    rw [hrmem, hmm]
  have htv4 : s4.totalVotes = s.totalVotes + (biT2.votes + biF2.votes)
      - ((s.stake a pT).votes + (s.stake a pF).votes) := by
    rw [hrtv, hmtv]
  have hrw4 : s4.rewards = Function.update s.rewards a
      (s.rewards a + (biT2.rewards + biF2.rewards)
        - ((s.stake a pT).rewards + (s.stake a pF).rewards)) := by
    rw [hrrw, hmrw]
  have htr4 : s4.totalRewards.getD 0 = s.totalRewards.getD 0
      + (biT2.rewards + biF2.rewards)
      - ((s.stake a pT).rewards + (s.stake a pF).rewards) := by
    rw [hrtr, hmtr]
  have hr1' : (s.stake a pT).rewards + (s.stake a pF).rewards
      ≤ s.rewards a + (biT2.rewards + biF2.rewards) := by
    rw [hmrw] at hr1; exact hr1
  have hrowv : (fun q => ((Function.update (Function.update (s.stake a) pF biF2) pT biT2) q).votes) =
      Function.update (Function.update (fun q => (s.stake a q).votes) pF biF2.votes)
        pT biT2.votes := by
    rw [update_apply_comp BondingInfo.votes _ pT biT2]
    rw [show (fun q => ((Function.update (s.stake a) pF biF2) q).votes)
        = Function.update (fun q => (s.stake a q).votes) pF biF2.votes from
      update_apply_comp BondingInfo.votes _ pF biF2]
  have hrowr : (fun q => ((Function.update (Function.update (s.stake a) pF biF2) pT biT2) q).rewards) =
      Function.update (Function.update (fun q => (s.stake a q).rewards) pF biF2.rewards)
        pT biT2.rewards := by
    rw [update_apply_comp BondingInfo.rewards _ pT biT2]
    rw [show (fun q => ((Function.update (s.stake a) pF biF2) q).rewards)
        = Function.update (fun q => (s.stake a q).rewards) pF biF2.rewards from
      update_apply_comp BondingInfo.rewards _ pF biF2]
  have hmadjC : s3.adjustments = s.adjustments := hmadj
  have hmrwC : s3.rewards = s.rewards := hmrw
  have hmdistC : s3.distribution = s.distribution := hmdist
  have hco : ∀ b, corrOf s4 b = corrOf s b -
      (s.distribution.shares_per_point : Int) * ((s4.rewards b : Int) - (s.rewards b : Int)) := by
    intro b
    have h1 := hrcorr b
    rw [show corrOf s3 b = corrOf s b from by simp only [corrOf, hmadjC]] at h1
    rw [hmdistC] at h1
    rw [show s3.rewards b = s.rewards b from by rw [hmrwC]] at h1
    exact h1
  have hpres : ∀ b, adjustedShares s4 b = adjustedShares s b := by
    intro b
    simp only [adjustedShares, hdist, hco]
    push_cast
    ring
  have hwd4 : ∀ b, withdrawnOf s4 b = withdrawnOf s b := by
    intro b
    rw [hrwd b]
    simp only [withdrawnOf, hmadjC]
  have hrowTotal : ∀ q, q ≠ pF → q ≠ pT →
      (Function.update (Function.update (s.stake a) pF biF2) pT biT2) q = s.stake a q := by
    intro q hqF hqT
    rw [Function.update_noteq hqT, Function.update_noteq hqF]
  constructor
  · intro q
    rw [hsc', hper]
    by_cases hqT : pT = q
    · subst hqT
      rw [Function.update_same]
      simpa using hpTmem
    · rw [Function.update_noteq (Ne.symm hqT)]
      by_cases hqF : pF = q
      · subst hqF
        rw [Function.update_same]
        simpa using hpFmem
      · rw [Function.update_noteq (Ne.symm hqF)]
        exact hI.dom q
  · intro q hq b
    rw [hsc'] at hq
    by_cases hqT : pT = q
    · subst hqT; rw [Function.update_same] at hq; cases hq
    · rw [Function.update_noteq (Ne.symm hqT)] at hq
      by_cases hqF : pF = q
      · subst hqF; rw [Function.update_same] at hq; cases hq
      · rw [Function.update_noteq (Ne.symm hqF)] at hq
        rw [hstake]
        by_cases hba : a = b
        · subst hba
          rw [Function.update_same, hrowTotal q (fun hh => hqF hh.symm) (fun hh => hqT hh.symm)]
          exact hI.off q hq a
        · rw [Function.update_noteq (Ne.symm hba)]
          exact hI.off q hq b
  · intro b q sc₂ hsc₂
    rw [hsc'] at hsc₂
    rw [hstake, hmin, htpp]
    by_cases hqT : pT = q
    · subst hqT
      rw [Function.update_same] at hsc₂
      injection hsc₂ with hsc₂
      subst hsc₂
      by_cases hba : a = b
      · subst hba
        rw [Function.update_same, Function.update_same]
        exact hvT
      · rw [Function.update_noteq (Ne.symm hba)]
        exact hI.votesEq b pT scT hcT
    · rw [Function.update_noteq (Ne.symm hqT)] at hsc₂
      by_cases hqF : pF = q
      · subst hqF
        rw [Function.update_same] at hsc₂
        injection hsc₂ with hsc₂
        subst hsc₂
        by_cases hba : a = b
        · subst hba
          rw [Function.update_same, Function.update_noteq (Ne.symm hqT),
            Function.update_same]
          exact hvF
        · rw [Function.update_noteq (Ne.symm hba)]
          exact hI.votesEq b pF scF hcF
      · rw [Function.update_noteq (Ne.symm hqF)] at hsc₂
        by_cases hba : a = b
        · subst hba
          rw [Function.update_same,
            hrowTotal q (fun hh => hqF hh.symm) (fun hh => hqT hh.symm)]
          exact hI.votesEq a q sc₂ hsc₂
        · rw [Function.update_noteq (Ne.symm hba)]
          exact hI.votesEq b q sc₂ hsc₂
  · intro b q sc₂ hsc₂
    rw [hsc'] at hsc₂
    rw [hstake, hmin, htpp]
    by_cases hqT : pT = q
    · subst hqT
      rw [Function.update_same] at hsc₂
      injection hsc₂ with hsc₂
      subst hsc₂
      by_cases hba : a = b
      · subst hba
        rw [Function.update_same, Function.update_same]
        exact hrT
      · rw [Function.update_noteq (Ne.symm hba)]
        exact hI.rewardsEq b pT scT hcT
    · rw [Function.update_noteq (Ne.symm hqT)] at hsc₂
      by_cases hqF : pF = q
      · subst hqF
        rw [Function.update_same] at hsc₂
        injection hsc₂ with hsc₂
        subst hsc₂
        by_cases hba : a = b
        · subst hba
          rw [Function.update_same, Function.update_noteq (Ne.symm hqT),
            Function.update_same]
          exact hrF
        · rw [Function.update_noteq (Ne.symm hba)]
          exact hI.rewardsEq b pF scF hcF
      · rw [Function.update_noteq (Ne.symm hqF)] at hsc₂
        by_cases hba : a = b
        · subst hba
          rw [Function.update_same,
            hrowTotal q (fun hh => hqF hh.symm) (fun hh => hqT hh.symm)]
          exact hI.rewardsEq a q sc₂ hsc₂
        · rw [Function.update_noteq (Ne.symm hba)]
          exact hI.rewardsEq b q sc₂ hsc₂
  · intro q sc₂ hsc₂
    rw [hsc'] at hsc₂
    rw [hstake]
    by_cases hqT : pT = q
    · subst hqT
      rw [Function.update_same] at hsc₂
      injection hsc₂ with hsc₂
      subst hsc₂
      have hcmp : (fun b => ((Function.update s.stake a
            (Function.update (Function.update (s.stake a) pF biF2) pT biT2)) b pT).total_stake) =
          Function.update (fun b => (s.stake b pT).total_stake) a
            ((Function.update (Function.update (s.stake a) pF biF2) pT biT2) pT).total_stake :=
        update_apply_comp (fun row => (row pT).total_stake) s.stake a _
      rw [Function.update_same] at hcmp
      show ({ scT with staked := stkdT } : StakeMultipliers).staked =
        ∑ b, ((Function.update s.stake a
          (Function.update (Function.update (s.stake a) pF biF2) pT biT2)) b pT).total_stake
      rw [show (∑ b, ((Function.update s.stake a
            (Function.update (Function.update (s.stake a) pF biF2) pT biT2)) b pT).total_stake)
          = ∑ b, Function.update (fun c => (s.stake c pT).total_stake) a biT2.total_stake b from
        Finset.sum_congr rfl fun b _ => congrFun hcmp b]
      have hsum := sum_univ_update (fun b => (s.stake b pT).total_stake) a biT2.total_stake
      have hold := hI.bucket pT scT hcT
      have hstkd' : ({ scT with staked := stkdT } : StakeMultipliers).staked = stkdT := rfl
      rw [hstkd']
      omega
    · rw [Function.update_noteq (Ne.symm hqT)] at hsc₂
      by_cases hqF : pF = q
      · subst hqF
        rw [Function.update_same] at hsc₂
        injection hsc₂ with hsc₂
        subst hsc₂
        have hcmp : (fun b => ((Function.update s.stake a
              (Function.update (Function.update (s.stake a) pF biF2) pT biT2)) b pF).total_stake) =
            Function.update (fun b => (s.stake b pF).total_stake) a
              ((Function.update (Function.update (s.stake a) pF biF2) pT biT2) pF).total_stake :=
          update_apply_comp (fun row => (row pF).total_stake) s.stake a _
        rw [Function.update_noteq hne, Function.update_same] at hcmp
        show ({ scF with staked := stkdF } : StakeMultipliers).staked =
          ∑ b, ((Function.update s.stake a
            (Function.update (Function.update (s.stake a) pF biF2) pT biT2)) b pF).total_stake
        rw [show (∑ b, ((Function.update s.stake a
              (Function.update (Function.update (s.stake a) pF biF2) pT biT2)) b pF).total_stake)
            = ∑ b, Function.update (fun c => (s.stake c pF).total_stake) a biF2.total_stake b from
          Finset.sum_congr rfl fun b _ => congrFun hcmp b]
        have hsum := sum_univ_update (fun b => (s.stake b pF).total_stake) a biF2.total_stake
        have hold := hI.bucket pF scF hcF
        have hstkd' : ({ scF with staked := stkdF } : StakeMultipliers).staked = stkdF := rfl
        rw [hstkd']
        omega
      · rw [Function.update_noteq (Ne.symm hqF)] at hsc₂
        have heq : ∀ b, ((Function.update s.stake a
            (Function.update (Function.update (s.stake a) pF biF2) pT biT2)) b q).total_stake
            = (s.stake b q).total_stake := by
          intro b
          by_cases hba : a = b
          · subst hba
            rw [Function.update_same,
              hrowTotal q (fun hh => hqF hh.symm) (fun hh => hqT hh.symm)]
          · rw [Function.update_noteq (Ne.symm hba)]
        rw [Finset.sum_congr rfl fun b _ => heq b]
        exact hI.bucket q sc₂ hsc₂
  · intro b
    rw [hmem4, hper, hstake]
    by_cases hba : a = b
    · subst hba
      simp only [Function.update_same]
      rw [hrowv]
      have hsum := list_map_sum_update2 hnd hne hpFd hpTd
        (fun q => (s.stake a q).votes) biF2.votes biT2.votes
      have hold := hI.membersEq a
      omega
    · rw [Function.update_noteq (Ne.symm hba), Function.update_noteq (Ne.symm hba)]
      exact hI.membersEq b
  · rw [htv4, hmem4]
    have hsum := sum_univ_update s.members a
      (s.members a + (biT2.votes + biF2.votes)
        - ((s.stake a pT).votes + (s.stake a pF).votes))
    have hold := hI.totalVotesEq
    omega
  · intro b
    rw [hrw4, hper, hstake]
    by_cases hba : a = b
    · subst hba
      simp only [Function.update_same]
      rw [hrowr]
      have hsum := list_map_sum_update2 hnd hne hpFd hpTd
        (fun q => (s.stake a q).rewards) biF2.rewards biT2.rewards
      have hold := hI.rewardsMapEq a
      omega
    · rw [Function.update_noteq (Ne.symm hba), Function.update_noteq (Ne.symm hba)]
      exact hI.rewardsMapEq b
  · rw [htr4, hrw4]
    have hsum := sum_univ_update s.rewards a
      (s.rewards a + (biT2.rewards + biF2.rewards)
        - ((s.stake a pT).rewards + (s.stake a pF).rewards))
    have hold := hI.totalRewardsEq
    omega
  · intro b hb
    rcases hrnone b hb with ⟨hb3, hbeq⟩
    rw [hmadjC] at hb3
    rw [hbeq, hmrwC]
    exact hI.adjNone b hb3
  · intro b
    rw [hpres b]
    exact hI.sharesNonneg b
  · intro b
    rw [hpres b, hwd4 b]
    exact hI.withdrawnLe b
  · rw [hdist]
    rw [Finset.sum_congr rfl fun b _ => hwd4 b]
    exact hI.pool
  · rw [hdist]; exact hI.leftoverLt
  · rw [hmin]; exact hI.minBondPos

theorem inv_bond [Fintype A] {s s' : State A} {env : Env} {a : A} {amt p : Nat}
    (hI : Inv s) (h : executeBond s env a amt p = .ok s') : Inv s' := by
  simp only [executeBond] at h
  split at h
  · exact absurd h (by simp)
  · rename_i sc hc
    split at h
    · exact absurd h (by simp)
    · rename_i s3 hm
      split at h
      · exact absurd h (by simp)
      · rename_i s4 hr
        injection h with h
        subst h
        have hm' : updateMembership
            { s with
              stakeConfig := Function.update s.stakeConfig p
                (some { sc with staked := sc.staked + amt })
              stake := Function.update s.stake a (Function.update (s.stake a) p
                { (s.stake a p).add_unlocked_tokens amt with
                  votes := calcPower s.minBond s.tokensPerPower
                    ((s.stake a p).add_unlocked_tokens amt).total_stake sc.voting
                  rewards := calcPower s.minBond s.tokensPerPower
                    ((s.stake a p).add_unlocked_tokens amt).total_stake sc.reward }) }
            a [(s.stake a p).votes]
            [calcPower s.minBond s.tokensPerPower
              ((s.stake a p).add_unlocked_tokens amt).total_stake sc.voting] = .ok s3 := hm
        have hr' : updateRewards s3 a [(s.stake a p).rewards]
            [calcPower s.minBond s.tokensPerPower
              ((s.stake a p).add_unlocked_tokens amt).total_stake sc.reward] = .ok s4 := hr
        have hstk : ({ (s.stake a p).add_unlocked_tokens amt with
            votes := calcPower s.minBond s.tokensPerPower
              ((s.stake a p).add_unlocked_tokens amt).total_stake sc.voting
            rewards := calcPower s.minBond s.tokensPerPower
              ((s.stake a p).add_unlocked_tokens amt).total_stake sc.reward } :
              BondingInfo).total_stake = (s.stake a p).total_stake + amt :=
          BondingInfo.total_stake_add_unlocked _ _
        exact inv_of_eq_fields
          (inv_tail_single hI hc rfl rfl (by omega) hm' hr')
          rfl rfl rfl rfl rfl rfl rfl rfl rfl rfl rfl

theorem inv_unbond [Fintype A] {s s' : State A} {env : Env} {a : A} {amt p : Nat}
    (hI : Inv s) (h : executeUnbond s env a amt p = .ok s') : Inv s' := by
  simp only [executeUnbond] at h
  split at h
  · exact absurd h (by simp)
  · rename_i sc hc
    split at h
    · exact absurd h (by simp)
    · rename_i hstkle
      split at h
      · exact absurd h (by simp)
      · rename_i bi1 hrel
        split at h
        · exact absurd h (by simp)
        · rename_i s3 hm
          split at h
          · exact absurd h (by simp)
          · rename_i s4 hr
            injection h with h
            subst h
            obtain ⟨hamt, hbstk, hbv, hbr, hblk, hbtot⟩ := BondingInfo.release_stake_ok hrel
            rw [hbv] at hm
            rw [hbr] at hr
            have hm' : updateMembership
                { s with
                  stakeConfig := Function.update s.stakeConfig p
                    (some { sc with staked := sc.staked - amt })
                  stake := Function.update s.stake a (Function.update (s.stake a) p
                    { bi1 with
                      votes := calcPower s.minBond s.tokensPerPower bi1.total_stake sc.voting
                      rewards := calcPower s.minBond s.tokensPerPower bi1.total_stake sc.reward })
                  claims := Function.update s.claims a
                    (s.claims a ++ [(amt, plusSeconds env.time p)]) }
                a [(s.stake a p).votes]
                [calcPower s.minBond s.tokensPerPower bi1.total_stake sc.voting] = .ok s3 := hm
            have hr' : updateRewards s3 a [(s.stake a p).rewards]
                [calcPower s.minBond s.tokensPerPower bi1.total_stake sc.reward] = .ok s4 := hr
            have hstk : ({ bi1 with
                votes := calcPower s.minBond s.tokensPerPower bi1.total_stake sc.voting
                rewards := calcPower s.minBond s.tokensPerPower bi1.total_stake sc.reward } :
                  BondingInfo).total_stake = bi1.total_stake := rfl
            exact inv_of_eq_fields
              (inv_tail_single hI hc rfl rfl (by omega) hm' hr')
              rfl rfl rfl rfl rfl rfl rfl rfl rfl rfl rfl

theorem inv_rebond [Fintype A] {s s' : State A} {env : Env} {a : A}
    {amt pF pT : Nat} (hI : Inv s)
    (h : executeRebond s env a amt pF pT = .ok s') : Inv s' := by
  simp only [executeRebond] at h
  split at h
  · exact absurd h (by simp)
  · split at h
    · exact absurd h (by simp)
    · rename_i hamt hnePT
      split at h
      · exact absurd h (by simp)
      · rename_i scF hcF
        split at h
        · exact absurd h (by simp)
        · rename_i hstkF
          split at h
          · exact absurd h (by simp)
          · rename_i scT hcT0
            have hneTF : pT ≠ pF := fun hh => hnePT hh.symm
            have hnePF : pF ≠ pT := fun hh => hnePT hh
            have hcT : s.stakeConfig pT = some scT := by
              rw [Function.update_noteq hneTF] at hcT0; exact hcT0
            split at h
            · exact absurd h (by simp)
            · rename_i biF1 hrel
              rw [Function.update_idem] at h
              rw [Function.update_same] at h
              rw [Function.update_noteq hneTF] at h
              obtain ⟨hamtF, hbstkF, hbvF, hbrF, hblkF, hbtotF⟩ :=
                BondingInfo.release_stake_ok hrel
              rw [hbvF, hbrF] at h
              by_cases hdir : pT < pF
              · -- rebond downwards: destination gets a locked entry
                rw [if_pos hdir] at h
                split at h
                · exact absurd h (by simp)
                · rename_i s3 hm
                  split at h
                  · exact absurd h (by simp)
                  · rename_i s4 hr
                    injection h with h
                    subst h
                    have htotT : (((s.stake a pT).add_locked_tokens
                        (plusSeconds env.time (pF - pT)) amt)).total_stake
                        = (s.stake a pT).total_stake + amt :=
                      BondingInfo.total_stake_add_locked _ _ _
                    exact inv_tail_double hnePF hI hcF hcT rfl rfl rfl rfl
                      (by
                        have h2 : (BondingInfo.mk biF1.stake
                            (calcPower s.minBond s.tokensPerPower
                              biF1.total_stake scF.voting)
                            (calcPower s.minBond s.tokensPerPower
                              biF1.total_stake scF.reward)
                            biF1.locked_tokens).total_stake = biF1.total_stake := rfl
                        omega)
                      (by
                        have h2 : (BondingInfo.mk
                            ((s.stake a pT).add_locked_tokens
                              (plusSeconds env.time (pF - pT)) amt).stake
                            (calcPower s.minBond s.tokensPerPower
                              ((s.stake a pT).add_locked_tokens
                                (plusSeconds env.time (pF - pT)) amt).total_stake scT.voting)
                            (calcPower s.minBond s.tokensPerPower
                              ((s.stake a pT).add_locked_tokens
                                (plusSeconds env.time (pF - pT)) amt).total_stake scT.reward)
                            ((s.stake a pT).add_locked_tokens
                              (plusSeconds env.time (pF - pT)) amt).locked_tokens).total_stake
                            = ((s.stake a pT).add_locked_tokens
                                (plusSeconds env.time (pF - pT)) amt).total_stake := rfl
                        omega)
                      hm hr
              · -- rebond upwards: destination gets free stake
                rw [if_neg hdir] at h
                split at h
                · exact absurd h (by simp)
                · rename_i s3 hm
                  split at h
                  · exact absurd h (by simp)
                  · rename_i s4 hr
                    injection h with h
                    subst h
                    have htotT : (((s.stake a pT).add_unlocked_tokens amt)).total_stake
                        = (s.stake a pT).total_stake + amt :=
                      BondingInfo.total_stake_add_unlocked _ _
                    exact inv_tail_double hnePF hI hcF hcT rfl rfl rfl rfl
                      (by
                        have h2 : (BondingInfo.mk biF1.stake
                            (calcPower s.minBond s.tokensPerPower
                              biF1.total_stake scF.voting)
                            (calcPower s.minBond s.tokensPerPower
                              biF1.total_stake scF.reward)
                            biF1.locked_tokens).total_stake = biF1.total_stake := rfl
                        omega)
                      (by
                        have h2 : (BondingInfo.mk
                            ((s.stake a pT).add_unlocked_tokens amt).stake
                            (calcPower s.minBond s.tokensPerPower
                              ((s.stake a pT).add_unlocked_tokens amt).total_stake scT.voting)
                            (calcPower s.minBond s.tokensPerPower
                              ((s.stake a pT).add_unlocked_tokens amt).total_stake scT.reward)
                            ((s.stake a pT).add_unlocked_tokens amt).locked_tokens).total_stake
                            = ((s.stake a pT).add_unlocked_tokens amt).total_stake := rfl
                        omega)
                      hm hr

theorem inv_claim [Fintype A] {s s' : State A} {env : Env} {a : A}
    (hI : Inv s) (h : executeClaim s env a = .ok s') : Inv s' := by
  simp only [executeClaim] at h
  split at h
  · exact absurd h (by simp)
  · injection h with h
    subst h
    exact inv_of_eq_fields hI rfl rfl rfl rfl rfl rfl rfl rfl rfl rfl rfl

theorem distributePool_ok {d d' : Distribution} {total amount : Nat}
    (h : distributePool d total amount = .ok d') :
    d'.shares_per_point = d.shares_per_point
      + ((amount * 2 ^ SHARES_SHIFT) % 2 ^ 128 + d.shares_leftover) / total ∧
    d'.shares_leftover =
      (((amount * 2 ^ SHARES_SHIFT) % 2 ^ 128 + d.shares_leftover) % total) % 2 ^ 64 ∧
    d'.distributed_total = d.distributed_total + amount ∧
    d'.withdrawable_total = d.withdrawable_total + amount := by
  simp only [distributePool] at h
  split at h
  · exact absurd h (by simp)
  · split at h
    · exact absurd h (by simp)
    · split at h
      · exact absurd h (by simp)
      · split at h
        · exact absurd h (by simp)
        · injection h with h
          rw [← h]
          exact ⟨rfl, rfl, rfl, rfl⟩

theorem withdrawableRewards_ok {power : Nat} {d : Distribution}
    {adj : WithdrawAdjustment A} {r : Nat}
    (h : withdrawableRewards power d adj = .ok r) :
    adj.withdrawn_rewards ≤
      ((d.shares_per_point * power : Nat) + adj.shares_correction).toNat / 2 ^ SHARES_SHIFT ∧
    r = ((d.shares_per_point * power : Nat) + adj.shares_correction).toNat / 2 ^ SHARES_SHIFT
      - adj.withdrawn_rewards := by
  simp only [withdrawableRewards] at h
  split at h
  · exact absurd h (by simp)
  · injection h with h
    exact ⟨by omega, h.symm⟩

theorem inv_distribute [Fintype A] {s s' : State A} {balance : Nat}
    (hI : Inv s) (h : executeDistributeRewards s balance = .ok s') : Inv s' := by
  simp only [executeDistributeRewards] at h
  split at h
  · exact absurd h (by simp)
  · rename_i total htot
    split at h
    · exact absurd h (by simp)
    · split at h
      · exact absurd h (by simp)
      · split at h
        · exact absurd h (by simp)
        · split at h
          · injection h with h
            subst h
            exact hI
          · split at h
            · exact absurd h (by simp)
            · rename_i d hd
              injection h with h
              subst h
              obtain ⟨hspp, hlo, hdt, hwt⟩ := distributePool_ok hd
              have hmono : ∀ b, adjustedShares s b ≤ adjustedShares
                  { s with distribution := d } b := by
                intro b
                simp only [adjustedShares, corrOf]
                have h1 : s.distribution.shares_per_point ≤ d.shares_per_point := by
                  rw [hspp]; exact Nat.le_add_right _ _
                have h2 : s.distribution.shares_per_point * s.rewards b
                    ≤ d.shares_per_point * s.rewards b := Nat.mul_le_mul_right _ h1
                omega
              constructor
              · exact hI.dom
              · exact hI.off
              · exact hI.votesEq
              · exact hI.rewardsEq
              · exact hI.bucket
              · exact hI.membersEq
              · exact hI.totalVotesEq
              · exact hI.rewardsMapEq
              · exact hI.totalRewardsEq
              · exact hI.adjNone
              · intro b
                exact le_trans (hI.sharesNonneg b) (hmono b)
              · intro b
                refine le_trans (hI.withdrawnLe b) ?_
                exact Nat.div_le_div_right (Int.toNat_le_toNat (hmono b))
              · show d.withdrawable_total + (∑ b, withdrawnOf s b) = d.distributed_total
                have hpool := hI.pool
                rw [hwt, hdt]
                omega
              · show d.shares_leftover < 2 ^ 64
                rw [hlo]
                exact Nat.mod_lt _ (by norm_num)
              · exact hI.minBondPos

theorem inv_withdraw [Fintype A] {s s' : State A} {sender : A} {owner? : Option A}
    (hI : Inv s) (h : executeWithdrawRewards s sender owner? = .ok s') : Inv s' := by
  simp only [executeWithdrawRewards] at h
  split at h
  · exact absurd h (by simp)
  · rename_i adj hadj
    split at h
    · exact absurd h (by simp)
    · split at h
      · exact absurd h (by simp)
      · rename_i reward hwr
        split at h
        · injection h with h
          subst h
          exact hI
        · rename_i hrnz
          split at h
          · exact absurd h (by simp)
          · rename_i hle
            injection h with h
            subst h
            obtain ⟨hwle, hreq⟩ := withdrawableRewards_ok hwr
            set owner := owner?.getD sender with howner
            have hadjC : adjustedShares s owner =
                (s.distribution.shares_per_point * s.rewards owner : Nat)
                  + adj.shares_correction := by
              simp [adjustedShares, corrOf, hadj]
            have hwdo : withdrawnOf s owner = adj.withdrawn_rewards := by
              simp [withdrawnOf, hadj]
            have hadjpt : ∀ b, corrOf { s with
                adjustments := Function.update s.adjustments owner
                  (some { adj with withdrawn_rewards := adj.withdrawn_rewards + reward })
                distribution := { s.distribution with
                  withdrawable_total := s.distribution.withdrawable_total - reward } } b
                = corrOf s b := by
              intro b
              by_cases hb : b = owner
              · subst hb
                simp [corrOf, Function.update_same, hadj]
              · simp [corrOf, Function.update_noteq hb]
            have hwdpt : ∀ b, withdrawnOf { s with
                adjustments := Function.update s.adjustments owner
                  (some { adj with withdrawn_rewards := adj.withdrawn_rewards + reward })
                distribution := { s.distribution with
                  withdrawable_total := s.distribution.withdrawable_total - reward } } b
                = Function.update (fun c => withdrawnOf s c) owner
                    (adj.withdrawn_rewards + reward) b := by
              intro b
              by_cases hb : b = owner
              · subst hb
                simp [withdrawnOf, Function.update_same]
              · simp [withdrawnOf, Function.update_noteq hb]
            constructor
            · exact hI.dom
            · exact hI.off
            · exact hI.votesEq
            · exact hI.rewardsEq
            · exact hI.bucket
            · exact hI.membersEq
            · exact hI.totalVotesEq
            · exact hI.rewardsMapEq
            · exact hI.totalRewardsEq
            · intro b hb
              have hb' : Function.update s.adjustments owner
                  (some { adj with withdrawn_rewards := adj.withdrawn_rewards + reward }) b
                  = none := hb
              by_cases hbo : b = owner
              · rw [hbo, Function.update_same] at hb'
                cases hb'
              · rw [Function.update_noteq hbo] at hb'
                exact hI.adjNone b hb' 
            · intro b
              have : adjustedShares { s with
                  adjustments := Function.update s.adjustments owner
                    (some { adj with withdrawn_rewards := adj.withdrawn_rewards + reward })
                  distribution := { s.distribution with
                    withdrawable_total := s.distribution.withdrawable_total - reward } } b
                  = adjustedShares s b := by
                simp only [adjustedShares, hadjpt b]
              rw [this]
              exact hI.sharesNonneg b
            · intro b
              have hsh : adjustedShares { s with
                  adjustments := Function.update s.adjustments owner
                    (some { adj with withdrawn_rewards := adj.withdrawn_rewards + reward })
                  distribution := { s.distribution with
                    withdrawable_total := s.distribution.withdrawable_total - reward } } b
                  = adjustedShares s b := by
                simp only [adjustedShares, hadjpt b]
              rw [hsh, hwdpt b]
              by_cases hb : b = owner
              · rw [hb, Function.update_same, hadjC]
                omega
              · rw [Function.update_noteq hb]
                exact hI.withdrawnLe b
            · have hsum := sum_univ_update (fun c => withdrawnOf s c) owner
                (adj.withdrawn_rewards + reward)
              rw [show (∑ b, withdrawnOf { s with
                  adjustments := Function.update s.adjustments owner
                    (some { adj with withdrawn_rewards := adj.withdrawn_rewards + reward })
                  distribution := { s.distribution with
                    withdrawable_total := s.distribution.withdrawable_total - reward } } b)
                  = ∑ b, Function.update (fun c => withdrawnOf s c) owner
                      (adj.withdrawn_rewards + reward) b from
                Finset.sum_congr rfl fun b _ => hwdpt b]
              have hpool := hI.pool
              have hlt : ¬ s.distribution.withdrawable_total < reward := hle
              show s.distribution.withdrawable_total - reward + _ =
                s.distribution.distributed_total
              omega
            · exact hI.leftoverLt
            · exact hI.minBondPos

theorem delegate_adjustments_eq (s : State A) (sender delegated : A) :
    (executeDelegateWithdrawal s sender delegated).adjustments
      = Function.update s.adjustments sender
          (some { (s.adjustments sender).getD ⟨0, 0, delegated⟩ with
            delegated := delegated }) := rfl

theorem inv_delegate [Fintype A] {s : State A} (sender delegated : A)
    (hI : Inv s) : Inv (executeDelegateWithdrawal s sender delegated) := by
  have hSadj := delegate_adjustments_eq s sender delegated
  have hcorr : ∀ b, corrOf (executeDelegateWithdrawal s sender delegated) b
      = corrOf s b := by
    intro b
    simp only [corrOf, hSadj]
    by_cases hb : b = sender
    · rw [hb, Function.update_same]
      cases hadj : s.adjustments sender <;> simp [hadj]
    · rw [Function.update_noteq hb]
  have hwd : ∀ b, withdrawnOf (executeDelegateWithdrawal s sender delegated) b
      = withdrawnOf s b := by
    intro b
    simp only [withdrawnOf, hSadj]
    by_cases hb : b = sender
    · rw [hb, Function.update_same]
      cases hadj : s.adjustments sender <;> simp [hadj]
    · rw [Function.update_noteq hb]
  constructor
  · exact hI.dom
  · exact hI.off
  · exact hI.votesEq
  · exact hI.rewardsEq
  · exact hI.bucket
  · exact hI.membersEq
  · exact hI.totalVotesEq
  · exact hI.rewardsMapEq
  · exact hI.totalRewardsEq
  · intro b hb
    rw [hSadj] at hb
    by_cases hbs : b = sender
    · rw [hbs, Function.update_same] at hb
      cases hb
    · rw [Function.update_noteq hbs] at hb
      exact hI.adjNone b hb
  · intro b
    have h1 : adjustedShares (executeDelegateWithdrawal s sender delegated) b
        = adjustedShares s b := by
      simp only [adjustedShares, hcorr b]
      rfl
    rw [h1]
    exact hI.sharesNonneg b
  · intro b
    have h1 : adjustedShares (executeDelegateWithdrawal s sender delegated) b
        = adjustedShares s b := by
      simp only [adjustedShares, hcorr b]
      rfl
    rw [h1, hwd b]
    exact hI.withdrawnLe b
  · rw [Finset.sum_congr rfl fun b _ => hwd b]
    exact hI.pool
  · exact hI.leftoverLt
  · exact hI.minBondPos

/-- Every reachable state satisfies the global invariant. -/
theorem reachable_inv [Fintype A] {s : State A} (h : Reachable s) : Inv s := by
  induction h with
  | init stakeCfg tokensPerPower minBond => exact inv_init stakeCfg tokensPerPower minBond
  | bond env sender amount period _ hok ih => exact inv_bond ih hok
  | unbond env sender amount period _ hok ih => exact inv_unbond ih hok
  | rebond env sender amount bondFrom bondTo _ hok ih => exact inv_rebond ih hok
  | claim env sender _ hok ih => exact inv_claim ih hok
  | distribute balance _ hok ih => exact inv_distribute ih hok
  | withdraw sender owner? _ hok ih => exact inv_withdraw ih hok
  | delegate sender delegated _ ih => exact inv_delegate sender delegated ih

/-! ## Per-command effect on the distribution pool and the corrections -/

/-- What the tail of `update_rewards` does to the reward-account observables,
for an arbitrary starting state. -/
theorem updateRewards_observables {s s' : State A} {sender : A} {oldV newV : List Nat}
    (h : updateRewards s sender oldV newV = .ok s') :
    s'.distribution = s.distribution ∧
    (∀ b, corrOf s' b = corrOf s b - (s.distribution.shares_per_point : Int)
      * ((s'.rewards b : Int) - (s.rewards b : Int))) ∧
    (∀ b, withdrawnOf s' b = withdrawnOf s b) ∧
    (∀ b, adjustedShares s' b = adjustedShares s b) := by
  obtain ⟨h1, hrw, htr, hcorr, hwd, hnone, hcfg, hper, hmin, htpp, hstk, hmem,
    htv, hdist, hclm, hts⟩ := updateRewards_ok_spec h
  refine ⟨hdist, hcorr, hwd, fun b => ?_⟩
  simp only [adjustedShares, hdist, hcorr b]
  push_cast
  ring

theorem executeBond_pool_spec {s s' : State A} {env : Env} {a : A} {amt p : Nat}
    (h : executeBond s env a amt p = .ok s') :
    s'.distribution = s.distribution ∧
    (∀ b, corrOf s' b = corrOf s b - (s.distribution.shares_per_point : Int)
      * ((s'.rewards b : Int) - (s.rewards b : Int))) ∧
    (∀ b, withdrawnOf s' b = withdrawnOf s b) ∧
    (∀ b, adjustedShares s' b = adjustedShares s b) := by
  simp only [executeBond] at h
  split at h
  · exact absurd h (by simp)
  · split at h
    · exact absurd h (by simp)
    · rename_i s3 hm
      split at h
      · exact absurd h (by simp)
      · rename_i s4 hr
        injection h with h
        subst h
        obtain ⟨_, hmm, hmtv, hmcfg, hmper, hmmin, hmtpp, hmstk, hmrw, hmtr,
          hmdist, hmadj, hmclm, hmts⟩ := updateMembership_ok_spec hm
        obtain ⟨hrdist, hrcorr, hrwd, hradj⟩ := updateRewards_observables hr
        have hmadjC : s3.adjustments = s.adjustments := hmadj
        have hmrwC : s3.rewards = s.rewards := hmrw
        have hmdistC : s3.distribution = s.distribution := hmdist
        have hco : ∀ b, corrOf s4 b = corrOf s b -
            (s.distribution.shares_per_point : Int)
              * ((s4.rewards b : Int) - (s.rewards b : Int)) := by
          intro b
          have h1 := hrcorr b
          rw [show corrOf s3 b = corrOf s b from by simp only [corrOf, hmadjC]] at h1
          rw [hmdistC] at h1
          rw [show s3.rewards b = s.rewards b from by rw [hmrwC]] at h1
          exact h1
        refine ⟨hrdist.trans hmdistC, fun b => hco b, fun b => ?_, fun b => ?_⟩
        · show withdrawnOf s4 b = withdrawnOf s b
          rw [hrwd b]
          simp only [withdrawnOf, hmadjC]
        · show adjustedShares s4 b = adjustedShares s b
          simp only [adjustedShares, hrdist.trans hmdistC, hco b]
          push_cast
          ring

theorem executeUnbond_pool_spec {s s' : State A} {env : Env} {a : A} {amt p : Nat}
    (h : executeUnbond s env a amt p = .ok s') :
    s'.distribution = s.distribution ∧
    (∀ b, corrOf s' b = corrOf s b - (s.distribution.shares_per_point : Int)
      * ((s'.rewards b : Int) - (s.rewards b : Int))) ∧
    (∀ b, withdrawnOf s' b = withdrawnOf s b) ∧
    (∀ b, adjustedShares s' b = adjustedShares s b) := by
  simp only [executeUnbond] at h
  split at h
  · exact absurd h (by simp)
  · split at h
    · exact absurd h (by simp)
    · split at h
      · exact absurd h (by simp)
      · split at h
        · exact absurd h (by simp)
        · rename_i s3 hm
          split at h
          · exact absurd h (by simp)
          · rename_i s4 hr
            injection h with h
            subst h
            obtain ⟨_, hmm, hmtv, hmcfg, hmper, hmmin, hmtpp, hmstk, hmrw, hmtr,
              hmdist, hmadj, hmclm, hmts⟩ := updateMembership_ok_spec hm
            obtain ⟨hrdist, hrcorr, hrwd, hradj⟩ := updateRewards_observables hr
            have hmadjC : s3.adjustments = s.adjustments := hmadj
            have hmrwC : s3.rewards = s.rewards := hmrw
            have hmdistC : s3.distribution = s.distribution := hmdist
            have hco : ∀ b, corrOf s4 b = corrOf s b -
                (s.distribution.shares_per_point : Int)
                  * ((s4.rewards b : Int) - (s.rewards b : Int)) := by
              intro b
              have h1 := hrcorr b
              rw [show corrOf s3 b = corrOf s b from by simp only [corrOf, hmadjC]] at h1
              rw [hmdistC] at h1
              rw [show s3.rewards b = s.rewards b from by rw [hmrwC]] at h1
              exact h1
            refine ⟨hrdist.trans hmdistC, fun b => hco b, fun b => ?_, fun b => ?_⟩
            · show withdrawnOf s4 b = withdrawnOf s b
              rw [hrwd b]
              simp only [withdrawnOf, hmadjC]
            · show adjustedShares s4 b = adjustedShares s b
              simp only [adjustedShares, hrdist.trans hmdistC, hco b]
              push_cast
              ring

theorem executeRebond_pool_spec {s s' : State A} {env : Env} {a : A}
    {amt pF pT : Nat} (h : executeRebond s env a amt pF pT = .ok s') :
    s'.distribution = s.distribution ∧
    (∀ b, corrOf s' b = corrOf s b - (s.distribution.shares_per_point : Int)
      * ((s'.rewards b : Int) - (s.rewards b : Int))) ∧
    (∀ b, withdrawnOf s' b = withdrawnOf s b) ∧
    (∀ b, adjustedShares s' b = adjustedShares s b) := by
  simp only [executeRebond] at h
  split at h
  · exact absurd h (by simp)
  · split at h
    · exact absurd h (by simp)
    · split at h
      · exact absurd h (by simp)
      · split at h
        · exact absurd h (by simp)
        · split at h
          · exact absurd h (by simp)
          · split at h
            · exact absurd h (by simp)
            · split at h
              · exact absurd h (by simp)
              · rename_i s3 hm
                split at h
                · exact absurd h (by simp)
                · rename_i s4 hr
                  injection h with h
                  subst h
                  obtain ⟨_, hmm, hmtv, hmcfg, hmper, hmmin, hmtpp, hmstk, hmrw, hmtr,
                    hmdist, hmadj, hmclm, hmts⟩ := updateMembership_ok_spec hm
                  obtain ⟨hrdist, hrcorr, hrwd, hradj⟩ := updateRewards_observables hr
                  have hmadjC : s3.adjustments = s.adjustments := hmadj
                  have hmrwC : s3.rewards = s.rewards := hmrw
                  have hmdistC : s3.distribution = s.distribution := hmdist
                  have hco : ∀ b, corrOf s4 b = corrOf s b -
                      (s.distribution.shares_per_point : Int)
                        * ((s4.rewards b : Int) - (s.rewards b : Int)) := by
                    intro b
                    have h1 := hrcorr b
                    rw [show corrOf s3 b = corrOf s b from by
                      simp only [corrOf, hmadjC]] at h1
                    rw [hmdistC] at h1
                    rw [show s3.rewards b = s.rewards b from by rw [hmrwC]] at h1
                    exact h1
                  refine ⟨hrdist.trans hmdistC, fun b => hco b, fun b => ?_, fun b => ?_⟩
                  · rw [hrwd b]
                    simp only [withdrawnOf, hmadjC]
                  · simp only [adjustedShares, hrdist.trans hmdistC, hco b]
                    push_cast
                    ring

theorem executeDistribute_pool_spec {s s' : State A} {balance : Nat}
    (h : executeDistributeRewards s balance = .ok s') :
    ∃ δ A0,
      s'.distribution.shares_per_point = s.distribution.shares_per_point + δ ∧
      s'.distribution.distributed_total = s.distribution.distributed_total + A0 ∧
      s'.distribution.withdrawable_total = s.distribution.withdrawable_total + A0 ∧
      s'.rewards = s.rewards ∧ s'.adjustments = s.adjustments ∧
      (∀ b, withdrawnOf s' b = withdrawnOf s b) ∧
      (∀ b, corrOf s' b = corrOf s b) ∧
      (∀ b, adjustedShares s' b = adjustedShares s b + (δ : Int) * (s.rewards b : Int)) := by
  simp only [executeDistributeRewards] at h
  split at h
  · exact absurd h (by simp)
  · split at h
    · exact absurd h (by simp)
    · split at h
      · exact absurd h (by simp)
      · split at h
        · exact absurd h (by simp)
        · split at h
          · injection h with h
            subst h
            exact ⟨0, 0, by simp, by simp, by simp, rfl, rfl, fun b => rfl,
              fun b => rfl, fun b => by simp⟩
          · split at h
            · exact absurd h (by simp)
            · rename_i d hd
              injection h with h
              subst h
              obtain ⟨hspp, hlo, hdt, hwt⟩ := distributePool_ok hd
              refine ⟨_, _, hspp, hdt, hwt, rfl, rfl, fun b => rfl, fun b => rfl,
                fun b => ?_⟩
              show (d.shares_per_point * s.rewards b : Nat) + corrOf s b
                = adjustedShares s b + _
              simp only [adjustedShares, hspp]
              push_cast
              ring

theorem executeWithdraw_pool_spec {s s' : State A} {sender : A} {owner? : Option A}
    (h : executeWithdrawRewards s sender owner? = .ok s') :
    ∃ R,
      withdrawnOf s' (owner?.getD sender) = withdrawnOf s (owner?.getD sender) + R ∧
      s.distribution.withdrawable_total = s'.distribution.withdrawable_total + R ∧
      s'.distribution.distributed_total = s.distribution.distributed_total ∧
      s'.distribution.shares_per_point = s.distribution.shares_per_point ∧
      s'.rewards = s.rewards ∧
      (∀ b, b ≠ owner?.getD sender → withdrawnOf s' b = withdrawnOf s b) ∧
      (∀ b, corrOf s' b = corrOf s b) := by
  simp only [executeWithdrawRewards] at h
  split at h
  · exact absurd h (by simp)
  · rename_i adj hadj
    split at h
    · exact absurd h (by simp)
    · split at h
      · exact absurd h (by simp)
      · rename_i reward hwr
        split at h
        · injection h with h
          subst h
          exact ⟨0, by omega, by omega, rfl, rfl, rfl, fun b _ => rfl, fun b => rfl⟩
        · split at h
          · exact absurd h (by simp)
          · rename_i hle
            injection h with h
            subst h
            refine ⟨reward, ?_, by
              show s.distribution.withdrawable_total
                = s.distribution.withdrawable_total - reward + reward
              omega, rfl, rfl, rfl, fun b hb => ?_, fun b => ?_⟩
            · simp only [withdrawnOf]
              rw [Function.update_same, hadj]
              simp
            · simp only [withdrawnOf]
              rw [Function.update_noteq hb]
            · simp only [corrOf]
              by_cases hb : b = owner?.getD sender
              · rw [hb, Function.update_same, hadj]
                simp
              · rw [Function.update_noteq hb]

theorem executeClaim_pool_spec {s s' : State A} {env : Env} {a : A}
    (h : executeClaim s env a = .ok s') :
    s'.distribution = s.distribution ∧ s'.adjustments = s.adjustments ∧
    s'.rewards = s.rewards := by
  simp only [executeClaim] at h
  split at h
  · exact absurd h (by simp)
  · injection h with h
    subst h
    exact ⟨rfl, rfl, rfl⟩

theorem executeDelegate_pool_spec (s : State A) (sender delegated : A) :
    (executeDelegateWithdrawal s sender delegated).distribution = s.distribution ∧
    (∀ b, withdrawnOf (executeDelegateWithdrawal s sender delegated) b
      = withdrawnOf s b) ∧
    (∀ b, corrOf (executeDelegateWithdrawal s sender delegated) b = corrOf s b) := by
  have hSadj := delegate_adjustments_eq s sender delegated
  refine ⟨rfl, fun b => ?_, fun b => ?_⟩
  · simp only [withdrawnOf, hSadj]
    by_cases hb : b = sender
    · rw [hb, Function.update_same]
      cases hadj : s.adjustments sender <;> simp [hadj]
    · rw [Function.update_noteq hb]
  · simp only [corrOf, hSadj]
    by_cases hb : b = sender
    · rw [hb, Function.update_same]
      cases hadj : s.adjustments sender <;> simp [hadj]
    · rw [Function.update_noteq hb]

/-- `update_membership` only fails by `Uint128` underflow on one of the two
checked subtractions. -/
theorem updateMembership_error {s : State A} {sender : A} {oldV newV : List Nat}
    {e : Err} (h : updateMembership s sender oldV newV = .error e) :
    s.members sender + newV.sum < oldV.sum ∨ s.totalVotes + newV.sum < oldV.sum := by
  simp only [updateMembership] at h
  split at h
  · exact absurd h (by simp)
  · split at h
    · exact Or.inl (by assumption)
    · split at h
      · exact Or.inr (by assumption)
      · exact absurd h (by simp)

/-- `update_rewards` only fails by `Uint128` underflow on one of the two
checked subtractions. -/
theorem updateRewards_error {s : State A} {sender : A} {oldV newV : List Nat}
    {e : Err} (h : updateRewards s sender oldV newV = .error e) :
    s.rewards sender + newV.sum < oldV.sum ∨
    s.totalRewards.getD 0 + newV.sum < oldV.sum := by
  simp only [updateRewards] at h
  split at h
  · exact absurd h (by simp)
  · split at h
    · exact Or.inl (by assumption)
    · split at h
      · exact Or.inr (by assumption)
      · exact absurd h (by simp)

/-- `release_stake` only ever fails with the underflow error, and only when
the matured-plus-free stake does not cover the requested amount. -/
theorem BondingInfo.release_stake_error_eq {b : BondingInfo} {env : Env}
    {n : Nat} {e : Err} (h : b.release_stake env n = .error e) :
    e = .underflow ∧ b.total_unlocked env < n := by
  simp only [BondingInfo.release_stake] at h
  split at h
  · rename_i hlt
    injection h with h
    refine ⟨h.symm, ?_⟩
    rw [← BondingInfo.free_unlocked_stake]
    exact hlt
  · exact absurd h (by simp)

/-- Contribution of a sorted insertion to the matured-entry sum: the new
entry counts exactly when it has matured. -/
theorem BondingInfo.insertLocked_filter_map_sum (l : List (Timestamp × Nat))
    (T : Timestamp) (n : Nat) (t : Timestamp) :
    (((BondingInfo.insertLocked l (T, n)).filter fun e => e.1 ≤ t).map (·.2)).sum
      = ((l.filter fun e => e.1 ≤ t).map (·.2)).sum + if T ≤ t then n else 0 := by
  induction l with
  | nil =>
    by_cases hT : T ≤ t
    · simp [BondingInfo.insertLocked, List.filter_cons, hT]
    · simp [BondingInfo.insertLocked, List.filter_cons, hT]
  | cons y ys ih =>
    simp only [BondingInfo.insertLocked]
    split
    · by_cases hT : T ≤ t <;> by_cases hy : y.1 ≤ t <;>
        simp [List.filter_cons, hT, hy] <;> omega
    · split
      · rename_i hxy
        have hT1 : y.1 = T := by rw [← hxy]
        have hT2 : y.2 = n := by rw [← hxy]
        by_cases hT : T ≤ t
        · simp [List.filter_cons, hT1, hT2, hT]
          omega
        · simp [List.filter_cons, hT1, hT2, hT]
      · by_cases hy : y.1 ≤ t
        · simp [List.filter_cons, hy, ih]
          by_cases hT : T ≤ t <;> simp [hT] <;> omega
        · simp [List.filter_cons, hy, ih]

/-- `add_locked_tokens` raises the unlockable stake only once the entry's
unlock time has been reached. -/
theorem BondingInfo.total_unlocked_add_locked (b : BondingInfo) (T : Timestamp)
    (n : Nat) (env : Env) :
    (b.add_locked_tokens T n).total_unlocked env
      = b.total_unlocked env + if T ≤ env.time then n else 0 := by
  simp only [BondingInfo.add_locked_tokens, BondingInfo.total_unlocked,
    BondingInfo.insertLocked_filter_map_sum]
  omega

/-- `distribute_rewards`'s pool arithmetic only ever fails with an overflow. -/
theorem distributePool_error {d : Distribution} {total amount : Nat} {e : Err}
    (h : distributePool d total amount = .error e) : e = .overflow := by
  simp only [distributePool] at h
  split at h
  · injection h with h
    exact h.symm
  · split at h
    · injection h with h
      exact h.symm
    · split at h
      · injection h with h
        exact h.symm
      · split at h
        · injection h with h
          exact h.symm
        · exact absurd h (by simp)

/-! ## Claim theorems -/

/-- C6: after every mutation each (account, bucket) record caches
`votes = power(total_stake, voting_multiplier)` and
`rewards = power(total_stake, reward_multiplier)` with
`power(s, m) = 0` for `s < min_bond` and `floor(s * m / tokens_per_power)`
otherwise; `min_bond` is at least 1 in every reachable state (it is forced
so at instantiation); and with `min_bond = 1000`, `tokens_per_power = 1000`
and multiplier one, a stake of 999 gives power 0 while 1000 gives exactly 1. -/
theorem c6_power_determinism [Fintype A] {s : State A} (h : Reachable s) :
    (∀ a p sc, s.stakeConfig p = some sc →
      (s.stake a p).votes =
        calcPower s.minBond s.tokensPerPower (s.stake a p).total_stake sc.voting ∧
      (s.stake a p).rewards =
        calcPower s.minBond s.tokensPerPower (s.stake a p).total_stake sc.reward) ∧
    1 ≤ s.minBond ∧
    calcPower 1000 1000 999 (10 ^ 18) = 0 ∧
    calcPower 1000 1000 1000 (10 ^ 18) = 1 := by
  have hI := reachable_inv h
  exact ⟨fun a p sc hsc => ⟨hI.votesEq a p sc hsc, hI.rewardsEq a p sc hsc⟩,
    hI.minBondPos, rfl, rfl⟩

theorem c6_power_determinism_witness :
    ((Scenario.s1.stake 0 1000).votes = 20 ∧ 1 ≤ Scenario.s1.minBond) ∧
    calcPower 1000 1000 999 (10 ^ 18) = 0 ∧
    calcPower 1000 1000 1000 (10 ^ 18) = 1 := by
  have h := @c6_power_determinism Scenario.Acct _ _ Scenario.s1
    (Reachable.bond Scenario.env0 0 20000 1000
      (Reachable.init Scenario.cfgMsg 1000 1000) rfl)
  exact ⟨⟨((h.1 0 1000 ⟨10 ^ 18, 10 ^ 18, 20000⟩ rfl).1).trans rfl, h.2.1⟩, h.2.2.1, h.2.2.2⟩

/-- C5: in every reachable state the sum over the buckets of the per-bucket
`total_staked` counters equals the sum over all accounts and buckets of the
account's total stake (free plus locked) in the stake records. -/
theorem c5_conservation [Fintype A] {s : State A} (h : Reachable s) :
    (s.periods.dedup.map fun p => bucketStaked s p).sum
      = ∑ a, (s.periods.dedup.map fun p => (s.stake a p).total_stake).sum := by
  have hI := reachable_inv h
  have hterm : ∀ p ∈ s.periods.dedup,
      bucketStaked s p = ∑ a, (s.stake a p).total_stake := by
    intro p hp
    have hmem := List.mem_dedup.mp hp
    have hsome := (hI.dom p).mpr hmem
    cases hc : s.stakeConfig p with
    | none => rw [hc] at hsome; cases hsome
    | some sc => simp [bucketStaked, hc, hI.bucket p sc hc]
  rw [List.map_congr_left hterm]
  exact list_sum_sum_comm _ _

theorem c5_conservation_witness :
    (Scenario.s3.periods.dedup.map fun p => bucketStaked Scenario.s3 p).sum
      = ∑ a, (Scenario.s3.periods.dedup.map
          fun p => (Scenario.s3.stake a p).total_stake).sum :=
  c5_conservation
    (Reachable.rebond Scenario.env0 0 20000 8000 1000
      (Reachable.rebond Scenario.env0 0 20000 1000 8000
        (Reachable.bond Scenario.env0 0 20000 1000
          (Reachable.init Scenario.cfgMsg 1000 1000) rfl) rfl) rfl)

/-- C2: every successful bond, unbond or rebond leaves `shares_per_point`
unchanged and decreases each account's `shares_correction` by exactly
`shares_per_point * Δ(reward power)` at the current `shares_per_point`
within the same command, so that the adjusted share count
`shares_per_point * power + correction` is unchanged by power changes; a
successful distribution leaves powers and corrections unchanged and raises
each account's adjusted share count by exactly its reward power times the
distribution's per-point delta — power changes between two distributions
therefore earn each distribution's share exactly at the power current then. -/
theorem c2_correction_rule :
    (∀ (s s' : State A) (env : Env) (a : A) (amt p : Nat),
      executeBond s env a amt p = .ok s' →
      s'.distribution.shares_per_point = s.distribution.shares_per_point ∧
      (∀ b, corrOf s' b = corrOf s b - (s.distribution.shares_per_point : Int)
        * ((s'.rewards b : Int) - (s.rewards b : Int))) ∧
      (∀ b, adjustedShares s' b = adjustedShares s b)) ∧
    (∀ (s s' : State A) (env : Env) (a : A) (amt p : Nat),
      executeUnbond s env a amt p = .ok s' →
      s'.distribution.shares_per_point = s.distribution.shares_per_point ∧
      (∀ b, corrOf s' b = corrOf s b - (s.distribution.shares_per_point : Int)
        * ((s'.rewards b : Int) - (s.rewards b : Int))) ∧
      (∀ b, adjustedShares s' b = adjustedShares s b)) ∧
    (∀ (s s' : State A) (env : Env) (a : A) (amt pF pT : Nat),
      executeRebond s env a amt pF pT = .ok s' →
      s'.distribution.shares_per_point = s.distribution.shares_per_point ∧
      (∀ b, corrOf s' b = corrOf s b - (s.distribution.shares_per_point : Int)
        * ((s'.rewards b : Int) - (s.rewards b : Int))) ∧
      (∀ b, adjustedShares s' b = adjustedShares s b)) ∧
    (∀ (s s' : State A) (balance : Nat),
      executeDistributeRewards s balance = .ok s' →
      (∀ b, s'.rewards b = s.rewards b) ∧ (∀ b, corrOf s' b = corrOf s b) ∧
      (∀ b, adjustedShares s' b = adjustedShares s b
        + ((s'.distribution.shares_per_point
            - s.distribution.shares_per_point : Nat) : Int) * (s.rewards b : Int))) := by
  refine ⟨fun s s' env a amt p h => ?_, fun s s' env a amt p h => ?_,
    fun s s' env a amt pF pT h => ?_, fun s s' balance h => ?_⟩
  · obtain ⟨hd, hc, hw, ha⟩ := executeBond_pool_spec h
    exact ⟨by rw [hd], hc, ha⟩
  · obtain ⟨hd, hc, hw, ha⟩ := executeUnbond_pool_spec h
    exact ⟨by rw [hd], hc, ha⟩
  · obtain ⟨hd, hc, hw, ha⟩ := executeRebond_pool_spec h
    exact ⟨by rw [hd], hc, ha⟩
  · obtain ⟨δ, A0, hspp, hdt, hwt, hrw, hadj, hwd, hc, ha⟩ :=
      executeDistribute_pool_spec h
    refine ⟨fun b => by rw [hrw], hc, fun b => ?_⟩
    rw [ha b, hspp]
    congr 2
    omega

theorem c2_correction_rule_witness :
    corrOf Scenario.s1 0 = corrOf Scenario.s0 0
      - (Scenario.s0.distribution.shares_per_point : Int)
        * ((Scenario.s1.rewards 0 : Int) - (Scenario.s0.rewards 0 : Int)) :=
  ((c2_correction_rule.1 Scenario.s0 Scenario.s1 Scenario.env0 0 20000 1000 rfl).2.1) 0

/-- C4: in every reachable state every account's withdrawable reward amount
is exactly `((shares_per_point * reward_power + shares_correction) >>
SHARES_SHIFT) - withdrawn_rewards`, the adjusted share count is never
negative, and the final subtraction never underflows. -/
theorem c4_withdrawable_formula [Fintype A] {s : State A} (h : Reachable s)
    (a : A) :
    0 ≤ adjustedShares s a ∧
    withdrawnOf s a ≤ (adjustedShares s a).toNat / 2 ^ SHARES_SHIFT ∧
    queryWithdrawableRewards s a
      = .ok ((adjustedShares s a).toNat / 2 ^ SHARES_SHIFT - withdrawnOf s a) := by
  have hI := reachable_inv h
  refine ⟨hI.sharesNonneg a, hI.withdrawnLe a, ?_⟩
  simp only [queryWithdrawableRewards]
  cases hadj : s.adjustments a with
  | none =>
    have hr0 := hI.adjNone a hadj
    simp [adjustedShares, corrOf, withdrawnOf, hadj, hr0]
  | some adj =>
    have hc : corrOf s a = adj.shares_correction := by simp [corrOf, hadj]
    have hw : withdrawnOf s a = adj.withdrawn_rewards := by simp [withdrawnOf, hadj]
    have hle := hI.withdrawnLe a
    rw [hw] at hle
    simp only [withdrawableRewards]
    rw [if_neg (by
      rw [show ((s.distribution.shares_per_point * s.rewards a : Nat)
          + adj.shares_correction : Int) = adjustedShares s a from by
        rw [adjustedShares, hc]]
      omega)]
    rw [show ((s.distribution.shares_per_point * s.rewards a : Nat)
        + adj.shares_correction : Int) = adjustedShares s a from by
      rw [adjustedShares, hc]]
    rw [hw]

theorem c4_withdrawable_formula_witness :
    0 ≤ adjustedShares Scenario.s1 0 ∧
    withdrawnOf Scenario.s1 0
      ≤ (adjustedShares Scenario.s1 0).toNat / 2 ^ SHARES_SHIFT ∧
    queryWithdrawableRewards Scenario.s1 0
      = .ok ((adjustedShares Scenario.s1 0).toNat / 2 ^ SHARES_SHIFT
          - withdrawnOf Scenario.s1 0) :=
  @c4_withdrawable_formula Scenario.Acct _ _ Scenario.s1
    (Reachable.bond Scenario.env0 0 20000 1000
      (Reachable.init Scenario.cfgMsg 1000 1000) rfl) 0

/-- C10: in every reachable state `withdrawable_total
= distributed_total - Σ withdrawn_rewards`; distributions add the same
amount to `distributed_total` and `withdrawable_total` without touching any
`withdrawn_rewards`; a successful withdrawal of `R` adds `R` to the owner's
`withdrawn_rewards` and removes exactly `R` from `withdrawable_total`; and
bond, unbond, rebond, claim and delegate leave all three quantities
unchanged. -/
theorem c10_pool_conservation [Fintype A] {s : State A} (h : Reachable s) :
    ((∑ a, withdrawnOf s a) ≤ s.distribution.distributed_total ∧
      s.distribution.withdrawable_total
        = s.distribution.distributed_total - ∑ a, withdrawnOf s a) ∧
    (∀ balance s', executeDistributeRewards s balance = .ok s' → ∃ A0,
      s'.distribution.distributed_total = s.distribution.distributed_total + A0 ∧
      s'.distribution.withdrawable_total = s.distribution.withdrawable_total + A0 ∧
      ∀ b, withdrawnOf s' b = withdrawnOf s b) ∧
    (∀ sender owner? s', executeWithdrawRewards s sender owner? = .ok s' → ∃ R,
      withdrawnOf s' (owner?.getD sender) = withdrawnOf s (owner?.getD sender) + R ∧
      s.distribution.withdrawable_total = s'.distribution.withdrawable_total + R ∧
      s'.distribution.distributed_total = s.distribution.distributed_total ∧
      ∀ b, b ≠ owner?.getD sender → withdrawnOf s' b = withdrawnOf s b) ∧
    (∀ env a amt p s', executeBond s env a amt p = .ok s' →
      s'.distribution.distributed_total = s.distribution.distributed_total ∧
      s'.distribution.withdrawable_total = s.distribution.withdrawable_total ∧
      ∀ b, withdrawnOf s' b = withdrawnOf s b) ∧
    (∀ env a amt p s', executeUnbond s env a amt p = .ok s' →
      s'.distribution.distributed_total = s.distribution.distributed_total ∧
      s'.distribution.withdrawable_total = s.distribution.withdrawable_total ∧
      ∀ b, withdrawnOf s' b = withdrawnOf s b) ∧
    (∀ env a amt pF pT s', executeRebond s env a amt pF pT = .ok s' →
      s'.distribution.distributed_total = s.distribution.distributed_total ∧
      s'.distribution.withdrawable_total = s.distribution.withdrawable_total ∧
      ∀ b, withdrawnOf s' b = withdrawnOf s b) ∧
    (∀ env a s', executeClaim s env a = .ok s' →
      s'.distribution.distributed_total = s.distribution.distributed_total ∧
      s'.distribution.withdrawable_total = s.distribution.withdrawable_total ∧
      ∀ b, withdrawnOf s' b = withdrawnOf s b) ∧
    (∀ sender delegated,
      (executeDelegateWithdrawal s sender delegated).distribution.distributed_total
        = s.distribution.distributed_total ∧
      (executeDelegateWithdrawal s sender delegated).distribution.withdrawable_total
        = s.distribution.withdrawable_total ∧
      ∀ b, withdrawnOf (executeDelegateWithdrawal s sender delegated) b
        = withdrawnOf s b) := by
  have hI := reachable_inv h
  have hpool := hI.pool
  refine ⟨⟨by omega, by omega⟩, fun balance s' hok => ?_,
    fun sender owner? s' hok => ?_, fun env a amt p s' hok => ?_,
    fun env a amt p s' hok => ?_, fun env a amt pF pT s' hok => ?_,
    fun env a s' hok => ?_, fun sender delegated => ?_⟩
  · obtain ⟨δ, A0, hspp, hdt, hwt, hrw, hadj, hwd, hc, ha⟩ :=
      executeDistribute_pool_spec hok
    exact ⟨A0, hdt, hwt, hwd⟩
  · obtain ⟨R, h1, h2, h3, h4, h5, h6, h7⟩ := executeWithdraw_pool_spec hok
    exact ⟨R, h1, h2, h3, h6⟩
  · obtain ⟨hd, hc, hw, ha⟩ := executeBond_pool_spec hok
    exact ⟨by rw [hd], by rw [hd], hw⟩
  · obtain ⟨hd, hc, hw, ha⟩ := executeUnbond_pool_spec hok
    exact ⟨by rw [hd], by rw [hd], hw⟩
  · obtain ⟨hd, hc, hw, ha⟩ := executeRebond_pool_spec hok
    exact ⟨by rw [hd], by rw [hd], hw⟩
  · obtain ⟨hd, hadj, hrw⟩ := executeClaim_pool_spec hok
    refine ⟨by rw [hd], by rw [hd], fun b => ?_⟩
    simp only [withdrawnOf, hadj]
  · obtain ⟨hd, hw, hc⟩ := executeDelegate_pool_spec s sender delegated
    exact ⟨by rw [hd], by rw [hd], hw⟩

theorem c10_pool_conservation_witness :
    (∑ a, withdrawnOf Scenario.s1 a) ≤ Scenario.s1.distribution.distributed_total ∧
    Scenario.s1.distribution.withdrawable_total
      = Scenario.s1.distribution.distributed_total - ∑ a, withdrawnOf Scenario.s1 a :=
  (@c10_pool_conservation Scenario.Acct _ _ Scenario.s1
    (Reachable.bond Scenario.env0 0 20000 1000
      (Reachable.init Scenario.cfgMsg 1000 1000) rfl)).1


/-- C7: for every unbond from an existing bucket of a reachable state, the
operation first folds every locked entry matured at the block time into the
free stake (`free_unlocked_tokens`) and then succeeds exactly when the
resulting free stake covers the requested amount, failing with an
arithmetic-underflow error otherwise; on success the record keeps exactly
the unmatured locked entries and the folded free stake minus the amount, so
an unbond covering a not-yet-matured rebond lock fails with underflow and
the same unbond succeeds once the block time reaches the lock's maturity. -/
theorem c7_unbond_characterization [Fintype A] {s : State A} (hR : Reachable s)
    (env : Env) (a : A) (amount period : Nat) (sc : StakeMultipliers)
    (hsc : s.stakeConfig period = some sc) :
    (((s.stake a period).free_unlocked_tokens env).stake < amount →
      executeUnbond s env a amount period = .error .underflow) ∧
    (amount ≤ ((s.stake a period).free_unlocked_tokens env).stake →
      ∃ s', executeUnbond s env a amount period = .ok s' ∧
        (s'.stake a period).stake =
          ((s.stake a period).free_unlocked_tokens env).stake - amount ∧
        (s'.stake a period).locked_tokens =
          (s.stake a period).locked_tokens.filter fun e => ¬ e.1 ≤ env.time) := by
  have hI := reachable_inv hR
  have hfu : ((s.stake a period).free_unlocked_tokens env).stake
      = (s.stake a period).total_unlocked env :=
    BondingInfo.free_unlocked_stake _ _
  have hts : (s.stake a period).total_stake ≤ sc.staked := by
    rw [hI.bucket period sc hsc]
    exact Finset.single_le_sum
      (fun b _ => Nat.zero_le ((s.stake b period).total_stake)) (Finset.mem_univ a)
  have htu := BondingInfo.total_unlocked_le (s.stake a period) env
  constructor
  · intro hlt
    rw [hfu] at hlt
    cases hres : executeUnbond s env a amount period with
    | error e =>
      suffices he : e = .underflow by rw [he]
      simp only [executeUnbond, hsc] at hres
      by_cases hcap : sc.staked < amount
      · rw [if_pos hcap] at hres
        injection hres with h
        exact h.symm
      · rw [if_neg hcap] at hres
        split at hres
        · rename_i e0 hrel
          injection hres with h
          obtain ⟨he0, -⟩ := BondingInfo.release_stake_error_eq hrel
          rw [← h]
          exact he0
        · rename_i bi1 hrel
          obtain ⟨hamt2, -, -, -, -, -⟩ := BondingInfo.release_stake_ok hrel
          have hamt2' : amount ≤ (s.stake a period).total_unlocked env := hamt2
          omega
    | ok s' =>
      exfalso
      simp only [executeUnbond, hsc] at hres
      by_cases hcap : sc.staked < amount
      · rw [if_pos hcap] at hres
        exact absurd hres (by simp)
      · rw [if_neg hcap] at hres
        split at hres
        · exact absurd hres (by simp)
        · rename_i bi1 hrel
          obtain ⟨hamt2, -, -, -, -, -⟩ := BondingInfo.release_stake_ok hrel
          have hamt2' : amount ≤ (s.stake a period).total_unlocked env := hamt2
          omega
  · intro hge
    rw [hfu] at hge
    have hpdedup : period ∈ s.periods.dedup :=
      List.mem_dedup.mpr ((hI.dom period).mp (by rw [hsc]; rfl))
    have hvle : (s.stake a period).votes ≤ s.members a := by
      rw [hI.membersEq a]
      exact element_le_list_sum hpdedup fun q => (s.stake a q).votes
    have hmle : s.members a ≤ s.totalVotes := by
      rw [hI.totalVotesEq]
      exact Finset.single_le_sum (fun b _ => Nat.zero_le _) (Finset.mem_univ a)
    have hrle : (s.stake a period).rewards ≤ s.rewards a := by
      rw [hI.rewardsMapEq a]
      exact element_le_list_sum hpdedup fun q => (s.stake a q).rewards
    have hrtle : s.rewards a ≤ s.totalRewards.getD 0 := by
      rw [hI.totalRewardsEq]
      exact Finset.single_le_sum (fun b _ => Nat.zero_le _) (Finset.mem_univ a)
    cases hres : executeUnbond s env a amount period with
    | error e =>
      exfalso
      simp only [executeUnbond, hsc] at hres
      rw [if_neg (by omega)] at hres
      split at hres
      · rename_i e0 hrel
        obtain ⟨-, hlt⟩ := BondingInfo.release_stake_error_eq hrel
        have hlt' : (s.stake a period).total_unlocked env < amount := hlt
        omega
      · rename_i bi1 hrel
        obtain ⟨hamt2, hbstk, hbv, hbr, hblk, hbtot⟩ :=
          BondingInfo.release_stake_ok hrel
        have hbv' : bi1.votes = (s.stake a period).votes := hbv
        have hbr' : bi1.rewards = (s.stake a period).rewards := hbr
        split at hres
        · rename_i e0 hm
          rcases updateMembership_error hm with hx | hx
          · have hx' : s.members a
                + [calcPower s.minBond s.tokensPerPower bi1.total_stake sc.voting].sum
                < [bi1.votes].sum := hx
            simp only [List.sum_cons, List.sum_nil] at hx'
            rw [hbv'] at hx'
            omega
          · have hx' : s.totalVotes
                + [calcPower s.minBond s.tokensPerPower bi1.total_stake sc.voting].sum
                < [bi1.votes].sum := hx
            simp only [List.sum_cons, List.sum_nil] at hx'
            rw [hbv'] at hx'
            omega
        · rename_i s3 hm
          split at hres
          · rename_i e0 hr
            obtain ⟨-, -, -, -, -, -, -, -, hrew3, htr3, -, -, -, -⟩ :=
              updateMembership_ok_spec hm
            have hrew3' : s3.rewards = s.rewards := hrew3
            have htr3' : s3.totalRewards = s.totalRewards := htr3
            rcases updateRewards_error hr with hx | hx
            · rw [hrew3'] at hx
              simp only [List.sum_cons, List.sum_nil] at hx
              rw [hbr'] at hx
              omega
            · rw [htr3'] at hx
              simp only [List.sum_cons, List.sum_nil] at hx
              rw [hbr'] at hx
              omega
          · exact absurd hres (by simp)
    | ok s' =>
      refine ⟨s', rfl, ?_⟩
      suffices heff : (s'.stake a period).stake
            = (s.stake a period).total_unlocked env - amount ∧
          (s'.stake a period).locked_tokens
            = (s.stake a period).locked_tokens.filter fun e => ¬ e.1 ≤ env.time by
        rw [hfu]
        exact heff
      simp only [executeUnbond, hsc] at hres
      rw [if_neg (by omega)] at hres
      split at hres
      · exact absurd hres (by simp)
      · rename_i bi1 hrel
        obtain ⟨hamt2, hbstk, hbv, hbr, hblk, hbtot⟩ :=
          BondingInfo.release_stake_ok hrel
        have hbstk' : bi1.stake = (s.stake a period).total_unlocked env - amount := hbstk
        have hblk' : bi1.locked_tokens
            = (s.stake a period).locked_tokens.filter fun e => ¬ e.1 ≤ env.time := hblk
        split at hres
        · exact absurd hres (by simp)
        · rename_i s3 hm
          split at hres
          · exact absurd hres (by simp)
          · rename_i s4 hr
            injection hres with hres
            subst hres
            obtain ⟨-, -, -, -, -, -, -, -, -, -, h4stk, -, -, -, -, -⟩ :=
              updateRewards_ok_spec hr
            obtain ⟨-, -, -, -, -, -, -, h3stk, -, -, -, -, -, -⟩ :=
              updateMembership_ok_spec hm
            have hstk : s4.stake = Function.update s.stake a
                (Function.update (s.stake a) period
                  { bi1 with
                    votes := calcPower s.minBond s.tokensPerPower
                      bi1.total_stake sc.voting
                    rewards := calcPower s.minBond s.tokensPerPower
                      bi1.total_stake sc.reward }) :=
              (h4stk.trans h3stk)
            have hfin1 : (s4.stake a period).stake
                = (s.stake a period).total_unlocked env - amount := by
              rw [hstk, Function.update_same, Function.update_same]
              exact hbstk'
            have hfin2 : (s4.stake a period).locked_tokens
                = (s.stake a period).locked_tokens.filter fun e => ¬ e.1 ≤ env.time := by
              rw [hstk, Function.update_same, Function.update_same]
              exact hblk'
            exact ⟨hfin1, hfin2⟩

theorem c7_unbond_characterization_witness :
    executeUnbond Scenario.s3 Scenario.env0 0 20000 1000 = .error .underflow ∧
    ∃ s', executeUnbond Scenario.s3 Scenario.envLater 0 20000 1000 = .ok s' ∧
      (s'.stake 0 1000).stake =
        ((Scenario.s3.stake 0 1000).free_unlocked_tokens Scenario.envLater).stake
          - 20000 ∧
      (s'.stake 0 1000).locked_tokens =
        (Scenario.s3.stake 0 1000).locked_tokens.filter
          fun e => ¬ e.1 ≤ Scenario.envLater.time := by
  have hR : Reachable Scenario.s3 :=
    Reachable.rebond Scenario.env0 0 20000 8000 1000
      (Reachable.rebond Scenario.env0 0 20000 1000 8000
        (Reachable.bond Scenario.env0 0 20000 1000
          (Reachable.init Scenario.cfgMsg 1000 1000) rfl) rfl) rfl
  constructor
  · exact (c7_unbond_characterization hR Scenario.env0 0 20000 1000
      ⟨10 ^ 18, 10 ^ 18, 20000⟩ rfl).1 (by decide)
  · exact (c7_unbond_characterization hR Scenario.envLater 0 20000 1000
      ⟨10 ^ 18, 10 ^ 18, 20000⟩ rfl).2 (by decide)

/-- C9 counterexample: a zero-amount bond and a zero-amount unbond are both
accepted (they return `ok`), so zero amounts are not rejected for every
command; only rebond validates the amount. -/
theorem c9_zero_amount_counterexample :
    (∃ s', executeBond Scenario.s0 Scenario.env0 0 0 1000 = .ok s') ∧
    (∃ s', executeUnbond Scenario.s1 Scenario.env0 0 0 1000 = .ok s') :=
  ⟨⟨_, rfl⟩, ⟨_, rfl⟩⟩

/-- C9 (amended): only the rebond command rejects a zero amount — it fails
with the `NoRebondAmount` validation error on every state before reading any
configuration; a zero-amount bond or unbond into an existing bucket of a
reachable state is accepted and returns `ok`. -/
theorem c9_zero_amount_validation [Fintype A] {s : State A} (hR : Reachable s) :
    (∀ (t : State A) env a pF pT,
      executeRebond t env a 0 pF pT = .error .noRebondAmount) ∧
    (∀ env a p sc, s.stakeConfig p = some sc →
      ∃ s', executeBond s env a 0 p = .ok s') ∧
    (∀ env a p sc, s.stakeConfig p = some sc →
      ∃ s', executeUnbond s env a 0 p = .ok s') := by
  have hI := reachable_inv hR
  refine ⟨fun t env a pF pT => rfl, fun env a p sc hsc => ?_, fun env a p sc hsc => ?_⟩
  · have hv := hI.votesEq a p sc hsc
    have hw := hI.rewardsEq a p sc hsc
    cases hres : executeBond s env a 0 p with
    | ok s' => exact ⟨s', rfl⟩
    | error e =>
      exfalso
      simp only [executeBond, hsc] at hres
      split at hres
      · rename_i e0 hm
        rcases updateMembership_error hm with hx | hx
        · have hx' : s.members a
              + [calcPower s.minBond s.tokensPerPower (s.stake a p).total_stake sc.voting].sum
              < [(s.stake a p).votes].sum := hx
          simp only [List.sum_cons, List.sum_nil] at hx'
          rw [← hv] at hx'
          omega
        · have hx' : s.totalVotes
              + [calcPower s.minBond s.tokensPerPower (s.stake a p).total_stake sc.voting].sum
              < [(s.stake a p).votes].sum := hx
          simp only [List.sum_cons, List.sum_nil] at hx'
          rw [← hv] at hx'
          omega
      · rename_i s3 hm
        split at hres
        · rename_i e0 hr
          obtain ⟨-, -, -, -, -, -, -, -, hrew3, htr3, -, -, -, -⟩ :=
            updateMembership_ok_spec hm
          have hrew3' : s3.rewards = s.rewards := hrew3
          have htr3' : s3.totalRewards = s.totalRewards := htr3
          rcases updateRewards_error hr with hx | hx
          · rw [hrew3'] at hx
            have hx' : s.rewards a
                + [calcPower s.minBond s.tokensPerPower (s.stake a p).total_stake sc.reward].sum
                < [(s.stake a p).rewards].sum := hx
            simp only [List.sum_cons, List.sum_nil] at hx'
            rw [← hw] at hx'
            omega
          · rw [htr3'] at hx
            have hx' : s.totalRewards.getD 0
                + [calcPower s.minBond s.tokensPerPower (s.stake a p).total_stake sc.reward].sum
                < [(s.stake a p).rewards].sum := hx
            simp only [List.sum_cons, List.sum_nil] at hx'
            have hrle : (s.stake a p).rewards ≤ s.rewards a := by
              rw [hI.rewardsMapEq a]
              exact element_le_list_sum
                (List.mem_dedup.mpr ((hI.dom p).mp (by rw [hsc]; rfl)))
                fun q => (s.stake a q).rewards
            have hrtle : s.rewards a ≤ s.totalRewards.getD 0 := by
              rw [hI.totalRewardsEq]
              exact Finset.single_le_sum (fun b _ => Nat.zero_le (s.rewards b))
                (Finset.mem_univ a)
            omega
        · exact absurd hres (by simp)
  · have hv := hI.votesEq a p sc hsc
    have hw := hI.rewardsEq a p sc hsc
    cases hres : executeUnbond s env a 0 p with
    | ok s' => exact ⟨s', rfl⟩
    | error e =>
      exfalso
      simp only [executeUnbond, hsc] at hres
      rw [if_neg (by omega)] at hres
      split at hres
      · rename_i e0 hrel
        obtain ⟨-, hlt⟩ := BondingInfo.release_stake_error_eq hrel
        have hlt' : (s.stake a p).total_unlocked env < 0 := hlt
        omega
      · rename_i bi1 hrel
        obtain ⟨hamt2, hbstk, hbv, hbr, hblk, hbtot⟩ :=
          BondingInfo.release_stake_ok hrel
        have hbv' : bi1.votes = (s.stake a p).votes := hbv
        have hbr' : bi1.rewards = (s.stake a p).rewards := hbr
        have hbtot0 : bi1.total_stake + 0 = (s.stake a p).total_stake := hbtot
        have hbtot' : bi1.total_stake = (s.stake a p).total_stake := by omega
        split at hres
        · rename_i e0 hm
          rcases updateMembership_error hm with hx | hx
          · have hx' : s.members a
                + [calcPower s.minBond s.tokensPerPower bi1.total_stake sc.voting].sum
                < [bi1.votes].sum := hx
            simp only [List.sum_cons, List.sum_nil] at hx'
            rw [hbv', hbtot', ← hv] at hx'
            omega
          · have hx' : s.totalVotes
                + [calcPower s.minBond s.tokensPerPower bi1.total_stake sc.voting].sum
                < [bi1.votes].sum := hx
            simp only [List.sum_cons, List.sum_nil] at hx'
            rw [hbv', hbtot', ← hv] at hx'
            have hvle : (s.stake a p).votes ≤ s.members a := by
              rw [hI.membersEq a]
              exact element_le_list_sum
                (List.mem_dedup.mpr ((hI.dom p).mp (by rw [hsc]; rfl)))
                fun q => (s.stake a q).votes
            have hmle : s.members a ≤ s.totalVotes := by
              rw [hI.totalVotesEq]
              exact Finset.single_le_sum (fun b _ => Nat.zero_le (s.members b))
                (Finset.mem_univ a)
            omega
        · rename_i s3 hm
          split at hres
          · rename_i e0 hr
            obtain ⟨-, -, -, -, -, -, -, -, hrew3, htr3, -, -, -, -⟩ :=
              updateMembership_ok_spec hm
            have hrew3' : s3.rewards = s.rewards := hrew3
            have htr3' : s3.totalRewards = s.totalRewards := htr3
            rcases updateRewards_error hr with hx | hx
            · rw [hrew3'] at hx
              have hx' : s.rewards a
                  + [calcPower s.minBond s.tokensPerPower bi1.total_stake sc.reward].sum
                  < [bi1.rewards].sum := hx
              simp only [List.sum_cons, List.sum_nil] at hx'
              rw [hbr', hbtot', ← hw] at hx'
              omega
            · rw [htr3'] at hx
              have hx' : s.totalRewards.getD 0
                  + [calcPower s.minBond s.tokensPerPower bi1.total_stake sc.reward].sum
                  < [bi1.rewards].sum := hx
              simp only [List.sum_cons, List.sum_nil] at hx'
              rw [hbr', hbtot', ← hw] at hx'
              have hrle : (s.stake a p).rewards ≤ s.rewards a := by
                rw [hI.rewardsMapEq a]
                exact element_le_list_sum
                  (List.mem_dedup.mpr ((hI.dom p).mp (by rw [hsc]; rfl)))
                  fun q => (s.stake a q).rewards
              have hrtle : s.rewards a ≤ s.totalRewards.getD 0 := by
                rw [hI.totalRewardsEq]
                exact Finset.single_le_sum (fun b _ => Nat.zero_le (s.rewards b))
                  (Finset.mem_univ a)
              omega
          · exact absurd hres (by simp)

theorem c9_zero_amount_validation_witness :
    executeRebond Scenario.s1 Scenario.env0 0 0 1000 8000 = .error .noRebondAmount ∧
    (∃ s', executeBond Scenario.s1 Scenario.env0 0 0 1000 = .ok s') ∧
    (∃ s', executeUnbond Scenario.s1 Scenario.env0 0 0 1000 = .ok s') := by
  have h := @c9_zero_amount_validation Scenario.Acct _ _ Scenario.s1
    (Reachable.bond Scenario.env0 0 20000 1000
      (Reachable.init Scenario.cfgMsg 1000 1000) rfl)
  exact ⟨h.1 Scenario.s1 Scenario.env0 0 1000 8000,
    h.2.1 Scenario.env0 0 1000 ⟨10 ^ 18, 10 ^ 18, 20000⟩ rfl,
    h.2.2 Scenario.env0 0 1000 ⟨10 ^ 18, 10 ^ 18, 20000⟩ rfl⟩

/-- C1 counterexample: rebonding the 20000 stake upwards from the 1000-second
to the 8000-second bucket (destination period *longer*) credits the
destination as immediately-free stake with no locked entry, and the whole
amount can be unbonded immediately — where the claim predicts a locked
entry and an underflow on immediate unbonding; it is the downward rebond
back to the 1000-second bucket that creates the locked entry. -/
theorem c1_rebond_lock_counterexample :
    executeRebond Scenario.s1 Scenario.env0 0 20000 1000 8000 = .ok Scenario.s2 ∧
    (Scenario.s2.stake 0 8000).locked_tokens = [] ∧
    (Scenario.s2.stake 0 8000).stake = 20000 ∧
    (∃ s', executeUnbond Scenario.s2 Scenario.env0 0 20000 8000 = .ok s') ∧
    (Scenario.s3.stake 0 1000).locked_tokens = [(plusSeconds 0 7000, 20000)] :=
  ⟨rfl, rfl, rfl, ⟨_, rfl⟩, rfl⟩

/-- C1 (amended): on every successful rebond the direction of the lock is
the opposite of the claimed one — when the destination period is *longer*
(`bond_from < bond_to`) the moved amount is credited to the destination
record as immediately-free stake; when it is *shorter* (`bond_to <
bond_from`) the amount is credited as a locked entry maturing exactly
`bond_from - bond_to` seconds after the block time, and that amount joins
the unlockable (hence unbondable) stake only once the block time reaches
the maturity. -/
theorem c1_rebond_lock_direction {s s' : State A} {env : Env} {a : A}
    {amt pF pT : Nat} (h : executeRebond s env a amt pF pT = .ok s') :
    (pF < pT →
      (s'.stake a pT).stake = (s.stake a pT).stake + amt ∧
      (s'.stake a pT).locked_tokens = (s.stake a pT).locked_tokens) ∧
    (pT < pF →
      (s'.stake a pT).stake = (s.stake a pT).stake ∧
      (s'.stake a pT).locked_tokens =
        BondingInfo.insertLocked (s.stake a pT).locked_tokens
          (plusSeconds env.time (pF - pT), amt) ∧
      (∀ env', ¬ plusSeconds env.time (pF - pT) ≤ env'.time →
        (s'.stake a pT).total_unlocked env' = (s.stake a pT).total_unlocked env') ∧
      ∀ env', plusSeconds env.time (pF - pT) ≤ env'.time →
        (s'.stake a pT).total_unlocked env'
          = (s.stake a pT).total_unlocked env' + amt) := by
  simp only [executeRebond] at h
  split at h
  · exact absurd h (by simp)
  · split at h
    · exact absurd h (by simp)
    · rename_i hamt hnePT
      split at h
      · exact absurd h (by simp)
      · rename_i scF hcF
        split at h
        · exact absurd h (by simp)
        · rename_i hstkF
          split at h
          · exact absurd h (by simp)
          · rename_i scT hcT0
            have hneTF : pT ≠ pF := fun hh => hnePT hh.symm
            split at h
            · exact absurd h (by simp)
            · rename_i biF1 hrel
              rw [Function.update_idem] at h
              rw [Function.update_same] at h
              rw [Function.update_noteq hneTF] at h
              obtain ⟨hamtF, hbstkF, hbvF, hbrF, hblkF, hbtotF⟩ :=
                BondingInfo.release_stake_ok hrel
              rw [hbvF, hbrF] at h
              by_cases hdir : pT < pF
              · rw [if_pos hdir] at h
                split at h
                · exact absurd h (by simp)
                · rename_i s3 hm
                  split at h
                  · exact absurd h (by simp)
                  · rename_i s4 hr
                    injection h with h
                    subst h
                    obtain ⟨-, -, -, -, -, -, -, -, -, -, h4stk, -, -, -, -, -⟩ :=
                      updateRewards_ok_spec hr
                    obtain ⟨-, -, -, -, -, -, -, h3stk, -, -, -, -, -, -⟩ :=
                      updateMembership_ok_spec hm
                    have hstk : s4.stake = Function.update s.stake a
                        (Function.update (Function.update (s.stake a) pF
                          (BondingInfo.mk biF1.stake
                            (calcPower s.minBond s.tokensPerPower biF1.total_stake scF.voting)
                            (calcPower s.minBond s.tokensPerPower biF1.total_stake scF.reward)
                            biF1.locked_tokens)) pT
                          (BondingInfo.mk (s.stake a pT).stake
                            (calcPower s.minBond s.tokensPerPower
                              ((s.stake a pT).add_locked_tokens
                                (plusSeconds env.time (pF - pT)) amt).total_stake scT.voting)
                            (calcPower s.minBond s.tokensPerPower
                              ((s.stake a pT).add_locked_tokens
                                (plusSeconds env.time (pF - pT)) amt).total_stake scT.reward)
                            (BondingInfo.insertLocked (s.stake a pT).locked_tokens
                              (plusSeconds env.time (pF - pT), amt)))) :=
                      h4stk.trans h3stk
                    have hpt : s4.stake a pT = BondingInfo.mk (s.stake a pT).stake
                        (calcPower s.minBond s.tokensPerPower
                          ((s.stake a pT).add_locked_tokens
                            (plusSeconds env.time (pF - pT)) amt).total_stake scT.voting)
                        (calcPower s.minBond s.tokensPerPower
                          ((s.stake a pT).add_locked_tokens
                            (plusSeconds env.time (pF - pT)) amt).total_stake scT.reward)
                        (BondingInfo.insertLocked (s.stake a pT).locked_tokens
                          (plusSeconds env.time (pF - pT), amt)) := by
                      rw [hstk, Function.update_same, Function.update_same]
                    refine ⟨fun hlt => absurd hdir (by omega), fun _ => ⟨?_, ?_, ?_, ?_⟩⟩
                    · rw [hpt]
                    · rw [hpt]
                    · intro env' hlt
                      have hTu : (s4.stake a pT).total_unlocked env'
                          = ((s.stake a pT).add_locked_tokens
                              (plusSeconds env.time (pF - pT)) amt).total_unlocked env' := by
                        rw [hpt]
                        rfl
                      rw [hTu, BondingInfo.total_unlocked_add_locked, if_neg hlt]
                      omega
                    · intro env' hle
                      have hTu : (s4.stake a pT).total_unlocked env'
                          = ((s.stake a pT).add_locked_tokens
                              (plusSeconds env.time (pF - pT)) amt).total_unlocked env' := by
                        rw [hpt]
                        rfl
                      rw [hTu, BondingInfo.total_unlocked_add_locked, if_pos hle]
              · rw [if_neg hdir] at h
                split at h
                · exact absurd h (by simp)
                · rename_i s3 hm
                  split at h
                  · exact absurd h (by simp)
                  · rename_i s4 hr
                    injection h with h
                    subst h
                    obtain ⟨-, -, -, -, -, -, -, -, -, -, h4stk, -, -, -, -, -⟩ :=
                      updateRewards_ok_spec hr
                    obtain ⟨-, -, -, -, -, -, -, h3stk, -, -, -, -, -, -⟩ :=
                      updateMembership_ok_spec hm
                    have hstk : s4.stake = Function.update s.stake a
                        (Function.update (Function.update (s.stake a) pF
                          (BondingInfo.mk biF1.stake
                            (calcPower s.minBond s.tokensPerPower biF1.total_stake scF.voting)
                            (calcPower s.minBond s.tokensPerPower biF1.total_stake scF.reward)
                            biF1.locked_tokens)) pT
                          (BondingInfo.mk ((s.stake a pT).stake + amt)
                            (calcPower s.minBond s.tokensPerPower
                              ((s.stake a pT).add_unlocked_tokens amt).total_stake scT.voting)
                            (calcPower s.minBond s.tokensPerPower
                              ((s.stake a pT).add_unlocked_tokens amt).total_stake scT.reward)
                            (s.stake a pT).locked_tokens)) :=
                      h4stk.trans h3stk
                    have hpt : s4.stake a pT = BondingInfo.mk ((s.stake a pT).stake + amt)
                        (calcPower s.minBond s.tokensPerPower
                          ((s.stake a pT).add_unlocked_tokens amt).total_stake scT.voting)
                        (calcPower s.minBond s.tokensPerPower
                          ((s.stake a pT).add_unlocked_tokens amt).total_stake scT.reward)
                        (s.stake a pT).locked_tokens := by
                      rw [hstk, Function.update_same, Function.update_same]
                    refine ⟨fun _ => ⟨?_, ?_⟩, fun hlt => absurd hlt hdir⟩
                    · rw [hpt]
                    · rw [hpt]

theorem c1_rebond_lock_direction_witness :
    (Scenario.s3.stake 0 1000).stake = (Scenario.s2.stake 0 1000).stake ∧
    (Scenario.s3.stake 0 1000).locked_tokens =
      BondingInfo.insertLocked (Scenario.s2.stake 0 1000).locked_tokens
        (plusSeconds Scenario.env0.time (8000 - 1000), 20000) := by
  have h := (c1_rebond_lock_direction
    (show executeRebond Scenario.s2 Scenario.env0 0 20000 8000 1000
        = .ok Scenario.s3 from rfl)).2 (by omega)
  exact ⟨h.1, h.2.1⟩

/-- C3 counterexample: distributing `2^40` when the total reward power is
`3 * 2^70` leaves `shares_leftover = 0` although `points mod total = 2^70`
(the remainder is truncated by the `as u64` cast); and on a freshly
instantiated contract the distribution fails with a not-found error (the
`TOTAL_REWARDS` item was never saved), not with the "no members" error. -/
theorem c3_distribution_update_counterexample :
    distributePool ⟨0, 0, 0, 0⟩ (3 * 2 ^ 70) (2 ^ 40)
        = .ok ⟨1, 0, 2 ^ 40, 2 ^ 40⟩ ∧
    (2 ^ 40 * 2 ^ SHARES_SHIFT + 0) % (3 * 2 ^ 70) = 2 ^ 70 ∧
    (2 ^ 70 : Nat) ≠ (0 : Nat) ∧
    executeDistributeRewards Scenario.s0 (10 ^ 6) = .error .notFound :=
  ⟨rfl, by norm_num [SHARES_SHIFT], by norm_num, rfl⟩

/-- C3 (amended): the claimed pool update is exact only inside the
non-truncating range — when the shifted amount plus the leftover stays
below `2^128` and the remainder `points mod total` fits in 64 bits (and the
running totals do not overflow); within that range `shares_per_point` grows
by `points / total`, the leftover becomes `points mod total`, and both
totals grow by the distributed amount.  When the `TOTAL_REWARDS` item
exists, the "no members" error occurs exactly when the stored total reward
power is zero (on a fresh contract the item is absent and the failure is a
not-found error instead). -/
theorem c3_distribution_update :
    (∀ (d : Distribution) (total amount : Nat),
      amount * 2 ^ SHARES_SHIFT + d.shares_leftover < 2 ^ 128 →
      (amount * 2 ^ SHARES_SHIFT + d.shares_leftover) % total < 2 ^ 64 →
      d.shares_per_point
        + (amount * 2 ^ SHARES_SHIFT + d.shares_leftover) / total < 2 ^ 128 →
      d.distributed_total + amount < 2 ^ 128 →
      d.withdrawable_total + amount < 2 ^ 128 →
      distributePool d total amount = .ok
        { shares_per_point := d.shares_per_point
            + (amount * 2 ^ SHARES_SHIFT + d.shares_leftover) / total
          shares_leftover := (amount * 2 ^ SHARES_SHIFT + d.shares_leftover) % total
          distributed_total := d.distributed_total + amount
          withdrawable_total := d.withdrawable_total + amount }) ∧
    (∀ (s : State A) (balance total : Nat), s.totalRewards = some total →
      (executeDistributeRewards s balance = .error .noMembersToDistributeTo ↔
        total = 0)) := by
  constructor
  · intro d total amount h1 h2 h3 h4 h5
    simp only [distributePool]
    have hsh : (amount * 2 ^ SHARES_SHIFT) % 2 ^ 128 = amount * 2 ^ SHARES_SHIFT :=
      Nat.mod_eq_of_lt (by omega)
    rw [hsh]
    rw [if_neg (by omega)]
    rw [Nat.mod_eq_of_lt h2]
    rw [if_neg (by omega), if_neg (by omega), if_neg (by omega)]
  · intro s balance total htot
    constructor
    · intro herr
      by_contra hne
      simp only [executeDistributeRewards, htot] at herr
      rw [if_neg hne] at herr
      split at herr
      · exact absurd herr (by simp)
      · split at herr
        · exact absurd herr (by simp)
        · split at herr
          · exact absurd herr (by simp)
          · split at herr
            · rename_i e0 hdp
              injection herr with herr
              rw [distributePool_error hdp] at herr
              exact absurd herr (by simp)
            · exact absurd herr (by simp)
    · intro h0
      subst h0
      simp [executeDistributeRewards, htot]

theorem c3_distribution_update_witness :
    (3 * 2 ^ SHARES_SHIFT + (0 : Nat) < 2 ^ 128) ∧
    distributePool ⟨0, 0, 0, 0⟩ 5 3 = .ok
      { shares_per_point := 0 + (3 * 2 ^ SHARES_SHIFT + 0) / 5
        shares_leftover := (3 * 2 ^ SHARES_SHIFT + 0) % 5
        distributed_total := 0 + 3
        withdrawable_total := 0 + 3 } ∧
    (executeDistributeRewards Scenario.s1 (10 ^ 6) = .error .noMembersToDistributeTo
      ↔ (20 : Nat) = 0) := by
  refine ⟨by norm_num [SHARES_SHIFT], ?_, ?_⟩
  · exact (@c3_distribution_update Scenario.Acct _).1 ⟨0, 0, 0, 0⟩ 5 3
      (by norm_num [SHARES_SHIFT]) (by norm_num [SHARES_SHIFT])
      (by norm_num [SHARES_SHIFT]) (by norm_num) (by norm_num)
  · exact (@c3_distribution_update Scenario.Acct _).2 Scenario.s1 (10 ^ 6) 20 rfl

/-- C8 counterexample (on the spec-modelled snapshot map): a voting-power
write recorded at height 5 is *not* returned by a query for height 5 — the
query returns the zero default, because `SnapshotMap` reads report the
state produced by writes at heights strictly below the queried height (as
pinned by the repository test `cw20_token_bond`); the write only becomes
visible at heights strictly greater than 5. -/
theorem c8_snapshot_visibility_counterexample :
    vmSave [] 5 7 = [(5, 7)] ∧
    queryVotingPowerAt (vmSave [] 5 7) ⟨0, 10⟩ (some 5) = (0, 5) ∧
    queryVotingPowerAt (vmSave [] 5 7) ⟨0, 10⟩ (some 6) = (7, 6) :=
  ⟨rfl, rfl, rfl⟩

/-- C8 (amended, on the spec-modelled snapshot map): a write at height `H`
is returned by the voting-power-at-height query for every queried height
*strictly greater* than `H` until a later write becomes visible (all
subsequent writes still at or above the queried height), and a query at or
below every recorded write height — in particular anywhere at or before the
first write — returns the zero default. -/
theorem c8_snapshot_visibility (m₁ m₂ : VersionedMap) (H v h : Nat) (env : Env) :
    (H < h → (∀ e ∈ m₂, ¬ e.1 < h) →
      queryVotingPowerAt (m₁ ++ (H, v) :: m₂) env (some h) = (v, h)) ∧
    ((∀ e ∈ m₁ ++ (H, v) :: m₂, ¬ e.1 < h) →
      queryVotingPowerAt (m₁ ++ (H, v) :: m₂) env (some h) = (0, h)) := by
  constructor
  · intro hH h2
    simp only [queryVotingPowerAt, vmLoadAtHeight]
    rw [List.filter_append, List.filter_cons]
    rw [if_pos (by simpa using hH)]
    have hnil : m₂.filter (fun e => decide (e.1 < h)) = [] := by
      rw [List.filter_eq_nil]
      intro e he
      simpa using h2 e he
    rw [hnil]
    rw [List.getLast?_concat]
    rfl
  · intro hall
    simp only [queryVotingPowerAt, vmLoadAtHeight]
    have hnil : (m₁ ++ (H, v) :: m₂).filter (fun e => decide (e.1 < h)) = [] := by
      rw [List.filter_eq_nil]
      intro e he
      simpa using hall e he
    rw [hnil]
    rfl

theorem c8_snapshot_visibility_witness :
    queryVotingPowerAt ([] ++ (5, 7) :: [(8, 9)]) ⟨0, 10⟩ (some 6) = (7, 6) ∧
    queryVotingPowerAt ([] ++ (5, 7) :: [(8, 9)]) ⟨0, 10⟩ (some 5) = (0, 5) :=
  ⟨(c8_snapshot_visibility [] [(8, 9)] 5 7 6 ⟨0, 10⟩).1 (by decide) (by decide),
    (c8_snapshot_visibility [] [(8, 9)] 5 7 5 ⟨0, 10⟩).2 (by decide)⟩

end WyndStake
